import Mathlib

/-!
Verification development for the yocto_raytrace core
(src/raytracing/yocto_raytrace/yocto_raytrace.cpp).

The C++ code is shallowly embedded over exact rationals.  Machine floats
become `ℚ` (claims about numeric results are settled up to the exact-arithmetic
idealisation the spec calls "floating-point tolerance"); the IEEE special
values needed by the post-processing claims are modelled by an explicit
`FV` type.  Functions of the external yocto support headers
(yocto_geometry.h, yocto_shading.h, yocto_sampling.h) that the repository
calls but does not define are modelled from the spec and marked as such;
everything else is translated from the source file.
-/

set_option linter.unusedVariables false

namespace YRT

/-- Embedding of `vec3f` with exact rational components. -/
structure V3 where
  x : ℚ
  y : ℚ
  z : ℚ
  deriving DecidableEq

/-- Embedding of `vec2f`. -/
structure V2 where
  x : ℚ
  y : ℚ
  deriving DecidableEq

/-- Embedding of `vec4f`. -/
structure V4 where
  x : ℚ
  y : ℚ
  z : ℚ
  w : ℚ
  deriving DecidableEq

instance : Add V3 := ⟨fun a b => ⟨a.x + b.x, a.y + b.y, a.z + b.z⟩⟩

instance : Sub V3 := ⟨fun a b => ⟨a.x - b.x, a.y - b.y, a.z - b.z⟩⟩

instance : Neg V3 := ⟨fun a => ⟨-a.x, -a.y, -a.z⟩⟩

instance : Add V4 := ⟨fun a b => ⟨a.x + b.x, a.y + b.y, a.z + b.z, a.w + b.w⟩⟩

instance : Mul V4 := ⟨fun a b => ⟨a.x * b.x, a.y * b.y, a.z * b.z, a.w * b.w⟩⟩

@[simp] theorem V3_add_def (a b : V3) :
    a + b = ⟨a.x + b.x, a.y + b.y, a.z + b.z⟩ := rfl

@[simp] theorem V3_sub_def (a b : V3) :
    a - b = ⟨a.x - b.x, a.y - b.y, a.z - b.z⟩ := rfl

@[simp] theorem V3_neg_def (a : V3) : -a = ⟨-a.x, -a.y, -a.z⟩ := rfl

@[simp] theorem V4_add_def (a b : V4) :
    a + b = ⟨a.x + b.x, a.y + b.y, a.z + b.z, a.w + b.w⟩ := rfl

@[simp] theorem V4_mul_def (a b : V4) :
    a * b = ⟨a.x * b.x, a.y * b.y, a.z * b.z, a.w * b.w⟩ := rfl

/-- Scalar multiplication on `vec3f`. -/
def smul3 (q : ℚ) (v : V3) : V3 := ⟨q * v.x, q * v.y, q * v.z⟩

/-- Scalar multiplication on `vec4f`. -/
def smul4 (q : ℚ) (v : V4) : V4 := ⟨q * v.x, q * v.y, q * v.z, q * v.w⟩

/-- Dot product on `vec3f` (modelled from the spec: `dot` of yocto_math.h). -/
def dot3 (a b : V3) : ℚ := a.x * b.x + a.y * b.y + a.z * b.z

/-- Cross product (modelled from the spec: `cross` of yocto_math.h). -/
def cross3 (a b : V3) : V3 :=
  ⟨a.y * b.z - a.z * b.y, a.z * b.x - a.x * b.z, a.x * b.y - a.y * b.x⟩

/-- Componentwise multiplication of `vec3f`. -/
def mul3 (a b : V3) : V3 := ⟨a.x * b.x, a.y * b.y, a.z * b.z⟩

/-- The `zero3f` constant. -/
def zero3 : V3 := ⟨0, 0, 0⟩

/-- The `zero2f` constant. -/
def zero2 : V2 := ⟨0, 0⟩

/-- RGB part of a `vec4f` (`xyz` in yocto_math.h). -/
def xyz4 (v : V4) : V3 := ⟨v.x, v.y, v.z⟩

/-- Truncation toward zero, the semantics of C's `(int)` cast and the
integral part used by `fmod`. -/
def qtrunc (q : ℚ) : ℤ := if q < 0 then -(⌊-q⌋) else ⌊q⌋

/-- C library `fmod(x, 1.0f)`: remainder with the sign of `x`. -/
def fmod1 (q : ℚ) : ℚ := q - qtrunc q

/-- Scalar clamp, as `clamp` of yocto_math.h (modelled from the spec). -/
def qclamp (q lo hi : ℚ) : ℚ := min (max q lo) hi

-- ---------------------------------------------------------------------------
-- Texture sampler (yocto_raytrace.cpp lines 41-99)
-- ---------------------------------------------------------------------------

/-- A pixel image: dimensions plus a pixel access function.  Mirrors
`image<vec4f>` / `image<vec4b>`; for the byte image the components hold the
raw byte values 0..255. -/
structure Img where
  w : ℤ
  h : ℤ
  pix : ℤ → ℤ → V4

/-- Emptiness test of a yocto `image` (`empty()`). -/
def Img.isEmpty (i : Img) : Bool := i.w * i.h == 0

/-- Embedding of `raytrace_texture`: one of an HDR float image or an LDR
byte image is populated. -/
structure TexQ where
  hdr : Img
  ldr : Img

/-- The external routines of yocto_color.h / yocto_math.h used by the texture
sampler.  `srgb_to_rgb` is a transcendental gamma curve; it is abstracted as
a parameter (modelled from the spec: gamma decode of low-dynamic-range
texels). -/
structure TexExt where
  srgb_to_rgb : V4 → V4

/-- Modelled from the spec: `byte_to_float` of yocto_color.h divides each
byte channel by 255. -/
def byte_to_float (v : V4) : V4 := ⟨v.x / 255, v.y / 255, v.z / 255, v.w / 255⟩

/-- Embedding of `texture_size` (yocto_raytrace.cpp lines 42-50). -/
def texture_size (texture : TexQ) : ℤ × ℤ :=
  if ¬ texture.hdr.isEmpty then (texture.hdr.w, texture.hdr.h)
  else if ¬ texture.ldr.isEmpty then (texture.ldr.w, texture.ldr.h)
  else (0, 0)

/-- Embedding of `lookup_texture` (yocto_raytrace.cpp lines 53-63). -/
def lookup_texture (ext : TexExt) (texture : TexQ) (i j : ℤ)
    (ldr_as_linear : Bool) : V4 :=
  if ¬ texture.hdr.isEmpty then texture.hdr.pix i j
  else if ¬ texture.ldr.isEmpty then
    (if ldr_as_linear then byte_to_float (texture.ldr.pix i j)
     else ext.srgb_to_rgb (byte_to_float (texture.ldr.pix i j)))
  else ⟨1, 1, 1, 1⟩

/-- Embedding of `eval_texture` (yocto_raytrace.cpp lines 66-99).  The null
texture pointer becomes `none`; the C++ `return {1, 1, 1}` aggregate
initialisation value-initialises the missing `w` component to `0`. -/
def eval_texture (ext : TexExt) (texture : Option TexQ) (uv : V2)
    (ldr_as_linear no_interpolation clamp_to_edge : Bool) : V4 :=
  match texture with
  | none => ⟨1, 1, 1, 0⟩
  | some texture =>
    let size := texture_size texture
    let s : ℚ :=
      if clamp_to_edge then qclamp uv.x 0 1 * size.1
      else
        let s0 := fmod1 uv.x * size.1
        if s0 < 0 then s0 + size.1 else s0
    let t : ℚ :=
      if clamp_to_edge then qclamp uv.y 0 1 * size.2
      else
        let t0 := fmod1 uv.y * size.2
        if t0 < 0 then t0 + size.2 else t0
    let i : ℤ := max (min (qtrunc s) (size.1 - 1)) 0
    let j : ℤ := max (min (qtrunc t) (size.2 - 1)) 0
    let ii : ℤ := (i + 1) % size.1
    let jj : ℤ := (j + 1) % size.2
    let u : ℚ := s - i
    let v : ℚ := t - j
    if no_interpolation then lookup_texture ext texture i j ldr_as_linear
    else
      smul4 ((1 - u) * (1 - v)) (lookup_texture ext texture i j ldr_as_linear) +
      smul4 ((1 - u) * v) (lookup_texture ext texture i jj ldr_as_linear) +
      smul4 (u * (1 - v)) (lookup_texture ext texture ii j ldr_as_linear) +
      smul4 (u * v) (lookup_texture ext texture ii jj ldr_as_linear)

-- ---------------------------------------------------------------------------
-- Geometry evaluator (yocto_raytrace.cpp lines 114-185)
-- ---------------------------------------------------------------------------

/-- Embedding of `raytrace_shape`: primitive index buffers plus parallel
per-vertex attribute buffers. -/
structure ShapeQ where
  points : List ℕ
  lines : List (ℕ × ℕ)
  triangles : List (ℕ × ℕ × ℕ)
  positions : List V3
  normals : List V3
  texcoords : List V2
  radius : List ℚ

/-- External routines of yocto_geometry.h / yocto_math.h used by the
geometry evaluator.  `normalize3` hides the square root of `normalize`;
the claims settled here hold for every choice of it. -/
structure GeoExt where
  normalize3 : V3 → V3

/-- Modelled from the spec: `interpolate_triangle` of yocto_geometry.h,
barycentric interpolation of three vertex values. -/
def interpolate_triangle (p0 p1 p2 : V3) (uv : V2) : V3 :=
  smul3 (1 - uv.x - uv.y) p0 + smul3 uv.x p1 + smul3 uv.y p2

/-- Modelled from the spec: `interpolate_line`, linear interpolation of two
vertex values by the first coordinate component. -/
def interpolate_line (p0 p1 : V3) (u : ℚ) : V3 :=
  smul3 (1 - u) p0 + smul3 u p1

/-- Modelled from the spec: `interpolate_triangle` on `vec2f` values. -/
def interpolate_triangle2 (p0 p1 p2 : V2) (uv : V2) : V2 :=
  ⟨(1 - uv.x - uv.y) * p0.x + uv.x * p1.x + uv.y * p2.x,
   (1 - uv.x - uv.y) * p0.y + uv.x * p1.y + uv.y * p2.y⟩

/-- Modelled from the spec: `interpolate_line` on `vec2f` values. -/
def interpolate_line2 (p0 p1 : V2) (u : ℚ) : V2 :=
  ⟨(1 - u) * p0.x + u * p1.x, (1 - u) * p0.y + u * p1.y⟩

/-- Modelled from the spec: `triangle_normal`, the normalized cross product
of two edges. -/
def triangle_normal (ext : GeoExt) (p0 p1 p2 : V3) : V3 :=
  ext.normalize3 (cross3 (p1 - p0) (p2 - p0))

/-- Modelled from the spec: `line_tangent`, the normalized segment
direction. -/
def line_tangent (ext : GeoExt) (p0 p1 : V3) : V3 :=
  ext.normalize3 (p1 - p0)

/-- List indexing with the C++ out-of-contract reads collapsed to a default
value (`operator[]` on a vector; in-bounds accesses are the caller
contract). -/
def nthV3 (l : List V3) (i : ℕ) : V3 := l.getD i zero3

/-- Indexing for texcoord buffers. -/
def nthV2 (l : List V2) (i : ℕ) : V2 := l.getD i zero2

/-- Embedding of `eval_position` (yocto_raytrace.cpp lines 115-129). -/
def eval_position (shape : ShapeQ) (element : ℕ) (uv : V2) : V3 :=
  if shape.triangles ≠ [] then
    let t := shape.triangles.getD element (0, 0, 0)
    interpolate_triangle (nthV3 shape.positions t.1)
      (nthV3 shape.positions t.2.1) (nthV3 shape.positions t.2.2) uv
  else if shape.lines ≠ [] then
    let l := shape.lines.getD element (0, 0)
    interpolate_line (nthV3 shape.positions l.1) (nthV3 shape.positions l.2) uv.x
  else if shape.points ≠ [] then
    nthV3 shape.positions (shape.points.getD element 0)
  else zero3

/-- Embedding of `eval_element_normal` (yocto_raytrace.cpp lines 132-145). -/
def eval_element_normal (ext : GeoExt) (shape : ShapeQ) (element : ℕ) : V3 :=
  if shape.triangles ≠ [] then
    let t := shape.triangles.getD element (0, 0, 0)
    triangle_normal ext (nthV3 shape.positions t.1)
      (nthV3 shape.positions t.2.1) (nthV3 shape.positions t.2.2)
  else if shape.lines ≠ [] then
    let l := shape.lines.getD element (0, 0)
    line_tangent ext (nthV3 shape.positions l.1) (nthV3 shape.positions l.2)
  else if shape.points ≠ [] then ⟨0, 0, 1⟩
  else ⟨0, 0, 0⟩

/-- Embedding of `eval_normal` (yocto_raytrace.cpp lines 148-165). -/
def eval_normal (ext : GeoExt) (shape : ShapeQ) (element : ℕ) (uv : V2) : V3 :=
  if shape.normals = [] then eval_element_normal ext shape element
  else if shape.triangles ≠ [] then
    let t := shape.triangles.getD element (0, 0, 0)
    ext.normalize3 (interpolate_triangle (nthV3 shape.normals t.1)
      (nthV3 shape.normals t.2.1) (nthV3 shape.normals t.2.2) uv)
  else if shape.lines ≠ [] then
    let l := shape.lines.getD element (0, 0)
    ext.normalize3 (interpolate_line (nthV3 shape.normals l.1)
      (nthV3 shape.normals l.2) uv.x)
  else if shape.points ≠ [] then
    ext.normalize3 (nthV3 shape.normals (shape.points.getD element 0))
  else zero3

/-- Embedding of `eval_texcoord` (yocto_raytrace.cpp lines 169-185). -/
def eval_texcoord (shape : ShapeQ) (element : ℕ) (uv : V2) : V2 :=
  if shape.texcoords = [] then uv
  else if shape.triangles ≠ [] then
    let t := shape.triangles.getD element (0, 0, 0)
    interpolate_triangle2 (nthV2 shape.texcoords t.1)
      (nthV2 shape.texcoords t.2.1) (nthV2 shape.texcoords t.2.2) uv
  else if shape.lines ≠ [] then
    let l := shape.lines.getD element (0, 0)
    interpolate_line2 (nthV2 shape.texcoords l.1) (nthV2 shape.texcoords l.2) uv.x
  else if shape.points ≠ [] then
    nthV2 shape.texcoords (shape.points.getD element 0)
  else zero2

-- ---------------------------------------------------------------------------
-- Camera (yocto_raytrace.cpp lines 103-112)
-- ---------------------------------------------------------------------------

/-- Embedding of `frame3f`: orthonormal/affine basis plus origin. -/
structure Frame where
  fx : V3
  fy : V3
  fz : V3
  fo : V3
  deriving DecidableEq

/-- Modelled from the spec: `transform_point` of yocto_math.h. -/
def transform_point (f : Frame) (p : V3) : V3 :=
  smul3 p.x f.fx + smul3 p.y f.fy + smul3 p.z f.fz + f.fo

/-- Modelled from the spec: `transform_vector` of yocto_math.h. -/
def transform_vector (f : Frame) (v : V3) : V3 :=
  smul3 v.x f.fx + smul3 v.y f.fy + smul3 v.z f.fz

/-- Modelled from the spec: `transform_direction` normalizes the transformed
vector. -/
def transform_direction (ext : GeoExt) (f : Frame) (v : V3) : V3 :=
  ext.normalize3 (transform_vector f v)

/-- Embedding of `raytrace_camera`: frame, lens, film, aperture, focus. -/
structure CameraQ where
  frame : Frame
  lens : ℚ
  film : V2
  aperture : ℚ
  focus : ℚ

/-- Embedding of `ray3f`. -/
structure RayQ where
  o : V3
  d : V3
  tmin : ℚ
  tmax : ℚ
  deriving DecidableEq

/-- Default `ray3f` parametric range: `tmin = 1e-4f`. -/
def rayEps : ℚ := 1 / 10000

/-- Default `ray3f` parametric range: `tmax = flt_max`. -/
def fltMaxQ : ℚ := 2 ^ 128

/-- Embedding of `eval_camera` (yocto_raytrace.cpp lines 103-112). -/
def eval_camera (ext : GeoExt) (camera : CameraQ) (image_uv : V2) : RayQ :=
  let e := zero3
  let q : V3 := ⟨camera.film.x * (1/2 - image_uv.x),
                 camera.film.y * (image_uv.y - 1/2), camera.lens⟩
  let q1 := -q
  let d := ext.normalize3 (q1 - e)
  ⟨transform_point camera.frame e, transform_direction ext camera.frame d,
    rayEps, fltMaxQ⟩

-- ---------------------------------------------------------------------------
-- Claims C8, C9, C10
-- ---------------------------------------------------------------------------

/-- C8 (divergence witness): `eval_texture` with no texture bound returns
`(1, 1, 1, 0)` — white with a value-initialised zero alpha — for every
coordinate and flag combination, not the opaque white `(1, 1, 1, 1)` the
spec requires.  The alpha slip comes from `return {1, 1, 1}` at
yocto_raytrace.cpp line 70. -/
theorem C8_eval_texture_unbound (ext : TexExt) (uv : V2)
    (ldr_as_linear no_interpolation clamp_to_edge : Bool) :
    eval_texture ext none uv ldr_as_linear no_interpolation clamp_to_edge =
      ⟨1, 1, 1, 0⟩ ∧ (⟨1, 1, 1, 0⟩ : V4) ≠ ⟨1, 1, 1, 1⟩ := by
  refine ⟨rfl, ?_⟩
  intro h
  cases h

/-- C9 (counterexample): the claim "every geometry-evaluator query returns
the zero vector on a shape with no populated primitive buffer" fails for
`eval_texcoord`: on the fully empty shape the texcoord-fallback branch
returns the input parametric coordinate unchanged, here `(1/2, 1/3) ≠ (0, 0)`. -/
theorem C9_empty_shape_counterexample :
    ¬ (∀ (ext : GeoExt) (shape : ShapeQ), shape.points = [] → shape.lines = [] →
        shape.triangles = [] → ∀ (element : ℕ) (uv : V2),
        eval_position shape element uv = zero3 ∧
        eval_normal ext shape element uv = zero3 ∧
        eval_texcoord shape element uv = zero2) := by
  intro h
  have := (h ⟨fun v => v⟩ ⟨[], [], [], [], [], [], []⟩ rfl rfl rfl 0 ⟨1/2, 1/3⟩).2.2
  simp [eval_texcoord, zero2] at this

/-- C9 (amended): on a shape with no populated primitive buffer,
`eval_position` returns the zero vector, `eval_normal` returns the zero
vector (whether or not a normal buffer is populated), and `eval_texcoord`
returns the zero vector exactly when a texcoord buffer is populated —
otherwise the buffer-missing fallback fires first and returns the input
parametric coordinate unchanged. -/
theorem C9_empty_shape_policy (ext : GeoExt) (shape : ShapeQ)
    (hp : shape.points = []) (hl : shape.lines = []) (ht : shape.triangles = [])
    (element : ℕ) (uv : V2) :
    eval_position shape element uv = zero3 ∧
    eval_normal ext shape element uv = zero3 ∧
    eval_texcoord shape element uv = (if shape.texcoords = [] then uv else zero2) := by
  refine ⟨?_, ?_, ?_⟩
  · simp [eval_position, hp, hl, ht]
  · by_cases hn : shape.normals = [] <;>
      simp [eval_normal, eval_element_normal, hn, hp, hl, ht, zero3]
  · by_cases htex : shape.texcoords = [] <;>
      simp [eval_texcoord, htex, hp, hl, ht]

/-- C9 witness: the amended statement applied to the concrete all-empty
shape. -/
theorem C9_empty_shape_policy_witness :
    eval_position ⟨[], [], [], [], [], [], []⟩ 0 ⟨1/2, 1/3⟩ = zero3 ∧
    eval_normal ⟨fun v => v⟩ ⟨[], [], [], [], [], [], []⟩ 0 ⟨1/2, 1/3⟩ = zero3 ∧
    eval_texcoord ⟨[], [], [], [], [], [], []⟩ 0 ⟨1/2, 1/3⟩ =
      (if ([] : List V2) = [] then (⟨1/2, 1/3⟩ : V2) else zero2) :=
  C9_empty_shape_policy ⟨fun v => v⟩ ⟨[], [], [], [], [], [], []⟩ rfl rfl rfl 0 ⟨1/2, 1/3⟩

/-- C10: the camera ray of `eval_camera` depends only on the camera's
frame, lens and film fields; two cameras differing only in aperture and
focus produce the same ray at every image coordinate (no depth of field is
modelled). -/
theorem C10_eval_camera_ignores_aperture_focus (ext : GeoExt)
    (c1 c2 : CameraQ) (hframe : c1.frame = c2.frame) (hlens : c1.lens = c2.lens)
    (hfilm : c1.film = c2.film) (image_uv : V2) :
    eval_camera ext c1 image_uv = eval_camera ext c2 image_uv := by
  unfold eval_camera
  rw [hframe, hlens, hfilm]

/-- C10 witness: two concrete cameras differing only in aperture/focus give
the same ray. -/
theorem C10_eval_camera_ignores_aperture_focus_witness :
    eval_camera ⟨fun v => v⟩
        ⟨⟨⟨1,0,0⟩, ⟨0,1,0⟩, ⟨0,0,1⟩, ⟨0,0,0⟩⟩, 1/20, ⟨9/250, 3/125⟩, 0, 1⟩ ⟨1/4, 3/4⟩ =
      eval_camera ⟨fun v => v⟩
        ⟨⟨⟨1,0,0⟩, ⟨0,1,0⟩, ⟨0,0,1⟩, ⟨0,0,0⟩⟩, 1/20, ⟨9/250, 3/125⟩, 1/2, 7⟩ ⟨1/4, 3/4⟩ :=
  C10_eval_camera_ignores_aperture_focus ⟨fun v => v⟩ _ _ rfl rfl rfl _

-- ---------------------------------------------------------------------------
-- Float values with IEEE special cases, for the render_sample
-- post-processing (yocto_raytrace.cpp lines 917-921)
-- ---------------------------------------------------------------------------

/-- A float value: either a finite rational or one of the IEEE special
values.  Rounding is idealised away (the claims are up to floating-point
tolerance); the special values are modelled exactly because the
post-processing claims are about them. -/
inductive FV where
  | fin (q : ℚ)
  | inf
  | ninf
  | nan
  deriving DecidableEq

/-- IEEE `<` on modelled floats: comparisons against NaN are false. -/
def FV.flt : FV → FV → Bool
  | .fin a, .fin b => a < b
  | .fin _, .inf => true
  | .ninf, .fin _ => true
  | .ninf, .inf => true
  | _, _ => false

/-- IEEE multiplication on modelled floats. -/
def FV.fmul : FV → FV → FV
  | .fin a, .fin b => .fin (a * b)
  | .fin a, .inf => if a > 0 then .inf else if a < 0 then .ninf else .nan
  | .inf, .fin b => if b > 0 then .inf else if b < 0 then .ninf else .nan
  | .fin a, .ninf => if a > 0 then .ninf else if a < 0 then .inf else .nan
  | .ninf, .fin b => if b > 0 then .ninf else if b < 0 then .inf else .nan
  | .inf, .inf => .inf
  | .inf, .ninf => .ninf
  | .ninf, .inf => .ninf
  | .ninf, .ninf => .inf
  | _, _ => .nan

/-- IEEE division on modelled floats (division by zero with nonzero
numerator gives a signed infinity; the cases the claims exercise). -/
def FV.fdiv : FV → FV → FV
  | .fin a, .fin b =>
      if b = 0 then (if a > 0 then .inf else if a < 0 then .ninf else .nan)
      else .fin (a / b)
  | .fin _, .inf => .fin 0
  | .fin _, .ninf => .fin 0
  | .inf, .fin b => if b < 0 then .ninf else .inf
  | .ninf, .fin b => if b < 0 then .inf else .ninf
  | _, _ => .nan

/-- IEEE addition on modelled floats. -/
def FV.fadd : FV → FV → FV
  | .fin a, .fin b => .fin (a + b)
  | .fin _, .inf => .inf
  | .inf, .fin _ => .inf
  | .fin _, .ninf => .ninf
  | .ninf, .fin _ => .ninf
  | .inf, .inf => .inf
  | .ninf, .ninf => .ninf
  | _, _ => .nan

/-- `max(a, b) = (a < b) ? b : a`, the yocto_math.h scalar max. -/
def FV.fmax (a b : FV) : FV := if FV.flt a b then b else a

/-- Finiteness of a modelled float (`isfinite`). -/
def FV.isfinite : FV → Bool
  | .fin _ => true
  | _ => false

/-- A `vec4f` of modelled floats, the type of a shader result. -/
structure FV4 where
  x : FV
  y : FV
  z : FV
  w : FV
  deriving DecidableEq

/-- `isfinite(xyz(v))` of yocto_math.h: all RGB components finite. -/
def FV4.isfiniteRGB (v : FV4) : Bool := v.x.isfinite && v.y.isfinite && v.z.isfinite

/-- `max(xyz(v))`: maximum RGB component, folded as `max(max(x, y), z)`. -/
def FV4.maxRGB (v : FV4) : FV := FV.fmax (FV.fmax v.x v.y) v.z

/-- First post-processing statement of `render_sample`
(yocto_raytrace.cpp line 917): the non-finite guard rewrites the shader
result as `{shaded.x, shaded.y, shaded.z, 1}` — the RGB components are
kept as they are, only `w` is reset. -/
def render_sample_guard (shaded : FV4) : FV4 :=
  if ¬ shaded.isfiniteRGB then FV4.mk shaded.x shaded.y shaded.z (.fin 1)
  else shaded

/-- Second post-processing statement of `render_sample`
(yocto_raytrace.cpp lines 918-921): the radiance clamp uniformly rescales
the RGB components when the largest one exceeds `params.clamp`. -/
def render_sample_clamp (shaded : FV4) (clampK : ℚ) : FV4 :=
  if FV.flt (.fin clampK) shaded.maxRGB then
    let scale := FV.fdiv (.fin clampK) shaded.maxRGB
    FV4.mk (shaded.x.fmul scale) (shaded.y.fmul scale) (shaded.z.fmul scale) shaded.w
  else shaded

/-- The post-processing of `render_sample` (yocto_raytrace.cpp lines
917-921): non-finite guard, then radiance clamp. -/
def render_sample_post (shaded : FV4) (clampK : ℚ) : FV4 :=
  render_sample_clamp (render_sample_guard shaded) clampK

/-- Accumulation step `state->accumulation[ij] += shaded` on one channel. -/
def accumChannel (acc : FV) (shaded : FV) : FV := acc.fadd shaded

-- Helper lemmas about finite float arithmetic.

theorem FV_flt_fin (a b : ℚ) : FV.flt (.fin a) (.fin b) = decide (a < b) := rfl

theorem FV_fmax_fin (a b : ℚ) : FV.fmax (.fin a) (.fin b) = .fin (max a b) := by
  simp only [FV.fmax, FV_flt_fin]
  by_cases h : a < b
  · simp [h, max_eq_right h.le]
  · simp [h, max_eq_left (not_lt.mp h)]

theorem FV4_maxRGB_fin (a b c w : ℚ) :
    FV4.maxRGB ⟨.fin a, .fin b, .fin c, .fin w⟩ = .fin (max (max a b) c) := by
  simp [FV4.maxRGB, FV_fmax_fin]

theorem render_sample_guard_fin (a b c w : ℚ) :
    render_sample_guard ⟨.fin a, .fin b, .fin c, .fin w⟩ =
      ⟨.fin a, .fin b, .fin c, .fin w⟩ := by
  simp [render_sample_guard, FV4.isfiniteRGB, FV.isfinite]

theorem render_sample_post_fin_noclamp (a b c w K : ℚ)
    (h : ¬ K < max (max a b) c) :
    render_sample_post ⟨.fin a, .fin b, .fin c, .fin w⟩ K =
      ⟨.fin a, .fin b, .fin c, .fin w⟩ := by
  unfold render_sample_post
  rw [render_sample_guard_fin]
  unfold render_sample_clamp
  rw [FV4_maxRGB_fin, FV_flt_fin]
  simp [h]

theorem render_sample_post_fin_clamp (a b c w K : ℚ)
    (h : K < max (max a b) c) (hm : max (max a b) c ≠ 0) :
    render_sample_post ⟨.fin a, .fin b, .fin c, .fin w⟩ K =
      ⟨.fin (a * (K / max (max a b) c)), .fin (b * (K / max (max a b) c)),
       .fin (c * (K / max (max a b) c)), .fin w⟩ := by
  unfold render_sample_post
  rw [render_sample_guard_fin]
  unfold render_sample_clamp
  rw [FV4_maxRGB_fin, FV_flt_fin]
  simp [h, FV.fdiv, FV.fmul, hm, mul_comm]

/-- C4 (code bug): the non-finite guard of `render_sample` does not replace
non-finite RGB components.  On the shader result `(+∞, 0, 0, 1)` with clamp
value 10 the post-processed color is `(NaN, 0, 0, 1)` — the infinite
channel trips the radiance clamp, whose zero scale turns it into NaN, and a
non-finite value is accumulated into the pixel, contradicting the claimed
finite fallback. -/
theorem C4_nonfinite_not_replaced :
    render_sample_post ⟨.inf, .fin 0, .fin 0, .fin 1⟩ 10 =
        ⟨.nan, .fin 0, .fin 0, .fin 1⟩ ∧
      ¬ (FV4.isfiniteRGB (render_sample_post ⟨.inf, .fin 0, .fin 0, .fin 1⟩ 10)) ∧
      accumChannel (.fin 0) (render_sample_post ⟨.inf, .fin 0, .fin 0, .fin 1⟩ 10).x =
        .nan := by
  have h : render_sample_post ⟨.inf, .fin 0, .fin 0, .fin 1⟩ 10 =
      ⟨.nan, .fin 0, .fin 0, .fin 1⟩ := by
    have hg : render_sample_guard ⟨.inf, .fin 0, .fin 0, .fin 1⟩ =
        ⟨.inf, .fin 0, .fin 0, .fin 1⟩ := by
      simp [render_sample_guard, FV4.isfiniteRGB, FV.isfinite]
    unfold render_sample_post
    rw [hg]
    unfold render_sample_clamp
    rw [if_pos (by simp [FV4.maxRGB, FV.fmax, FV.flt])]
    simp [FV4.maxRGB, FV.fmax, FV.flt, FV.fdiv, FV.fmul]
  refine ⟨h, ?_, ?_⟩
  · rw [h]; simp [FV4.isfiniteRGB, FV.isfinite]
  · rw [h]; simp [accumChannel, FV.fadd]

/-- C3: for a finite shader result and a positive clamp value `K`, the
post-processed color of `render_sample` has every RGB channel at most `K`;
and whenever the unclamped maximum channel exceeded `K`, the rescale
preserves the ratios between channels (cross products of old and new
channel values agree) and only reduces magnitudes. -/
theorem C3_radiance_clamp (a b c w : ℚ) (K : ℚ) (hK : 0 < K) :
    ∃ a2 b2 c2 : ℚ,
      render_sample_post ⟨.fin a, .fin b, .fin c, .fin w⟩ K =
          ⟨.fin a2, .fin b2, .fin c2, .fin w⟩ ∧
        a2 ≤ K ∧ b2 ≤ K ∧ c2 ≤ K ∧
        (K < max (max a b) c →
          (a2 * b = a * b2 ∧ b2 * c = b * c2 ∧ a2 * c = a * c2) ∧
          |a2| ≤ |a| ∧ |b2| ≤ |b| ∧ |c2| ≤ |c|) := by
  by_cases hover : K < max (max a b) c
  · have hmaxpos : 0 < max (max a b) c := lt_trans hK hover
    refine ⟨a * (K / max (max a b) c), b * (K / max (max a b) c),
      c * (K / max (max a b) c), ?_, ?_, ?_, ?_, ?_⟩
    · exact render_sample_post_fin_clamp a b c w K hover (ne_of_gt hmaxpos)
    · have ha : a ≤ max (max a b) c := le_trans (le_max_left a b) (le_max_left _ c)
      calc a * (K / max (max a b) c) ≤ max (max a b) c * (K / max (max a b) c) :=
            mul_le_mul_of_nonneg_right ha (le_of_lt (div_pos hK hmaxpos))
        _ = K := by field_simp
    · have hb : b ≤ max (max a b) c := le_trans (le_max_right a b) (le_max_left _ c)
      calc b * (K / max (max a b) c) ≤ max (max a b) c * (K / max (max a b) c) :=
            mul_le_mul_of_nonneg_right hb (le_of_lt (div_pos hK hmaxpos))
        _ = K := by field_simp
    · have hc : c ≤ max (max a b) c := le_max_right _ c
      calc c * (K / max (max a b) c) ≤ max (max a b) c * (K / max (max a b) c) :=
            mul_le_mul_of_nonneg_right hc (le_of_lt (div_pos hK hmaxpos))
        _ = K := by field_simp
    · intro _
      have hs1 : K / max (max a b) c ≤ 1 := by
        rw [div_le_one hmaxpos]; exact le_of_lt hover
      have hs0 : 0 ≤ K / max (max a b) c := le_of_lt (div_pos hK hmaxpos)
      have habs : |K / max (max a b) c| ≤ 1 := by rw [abs_of_nonneg hs0]; exact hs1
      refine ⟨⟨by ring, by ring, by ring⟩, ?_, ?_, ?_⟩
      · calc |a * (K / max (max a b) c)| = |a| * |K / max (max a b) c| := abs_mul _ _
          _ ≤ |a| * 1 := mul_le_mul_of_nonneg_left habs (abs_nonneg a)
          _ = |a| := mul_one _
      · calc |b * (K / max (max a b) c)| = |b| * |K / max (max a b) c| := abs_mul _ _
          _ ≤ |b| * 1 := mul_le_mul_of_nonneg_left habs (abs_nonneg b)
          _ = |b| := mul_one _
      · calc |c * (K / max (max a b) c)| = |c| * |K / max (max a b) c| := abs_mul _ _
          _ ≤ |c| * 1 := mul_le_mul_of_nonneg_left habs (abs_nonneg c)
          _ = |c| := mul_one _
  · refine ⟨a, b, c, ?_, ?_, ?_, ?_, fun h => absurd h hover⟩
    · exact render_sample_post_fin_noclamp a b c w K hover
    · have := not_lt.mp hover
      exact le_trans (le_trans (le_max_left a b) (le_max_left _ c)) this
    · have := not_lt.mp hover
      exact le_trans (le_trans (le_max_right a b) (le_max_left _ c)) this
    · exact le_trans (le_max_right (max a b) c) (not_lt.mp hover)

/-- C3 witness: the clamp theorem applied at the concrete over-bright
shader result `(4, 2, 1)` with clamp value 2. -/
theorem C3_radiance_clamp_witness :
    (0 : ℚ) < 2 ∧
      ∃ a2 b2 c2 : ℚ,
        render_sample_post ⟨.fin 4, .fin 2, .fin 1, .fin 1⟩ 2 =
            ⟨.fin a2, .fin b2, .fin c2, .fin 1⟩ ∧
          a2 ≤ 2 ∧ b2 ≤ 2 ∧ c2 ≤ 2 ∧
          ((2 : ℚ) < max (max 4 2) 1 →
            (a2 * 2 = 4 * b2 ∧ b2 * 1 = 2 * c2 ∧ a2 * 1 = 4 * c2) ∧
            |a2| ≤ |(4 : ℚ)| ∧ |b2| ≤ |(2 : ℚ)| ∧ |c2| ≤ |(1 : ℚ)|) :=
  ⟨by norm_num, C3_radiance_clamp 4 2 1 1 2 (by norm_num)⟩

-- ---------------------------------------------------------------------------
-- Progressive sampler (yocto_raytrace.cpp lines 908-962)
-- ---------------------------------------------------------------------------

/-- Componentwise float addition of shader results
(`accumulation[ij] += shaded`). -/
def fv4add (a b : FV4) : FV4 := ⟨a.x.fadd b.x, a.y.fadd b.y, a.z.fadd b.z, a.w.fadd b.w⟩

/-- Componentwise division of an accumulated color by a sample count
(`accumulation[ij] / samples[ij]`). -/
def fv4divNat (a : FV4) (n : ℕ) : FV4 :=
  ⟨a.x.fdiv (.fin n), a.y.fdiv (.fin n), a.z.fdiv (.fin n), a.w.fdiv (.fin n)⟩

/-- The zero color `zero4f`. -/
def fv4zero : FV4 := ⟨.fin 0, .fin 0, .fin 0, .fin 0⟩

/-- Embedding of `raytrace_state`: per-pixel accumulation, sample counts,
RNG states and the derived mean image, at a fixed resolution.  The image
arrays become functions of the pixel coordinate; the abstract RNG state is
a natural number. -/
structure RStateQ where
  sizeX : ℕ
  sizeY : ℕ
  render : ℕ × ℕ → FV4
  accumulation : ℕ × ℕ → FV4
  samples : ℕ × ℕ → ℕ
  rngs : ℕ × ℕ → ℕ

/-- Modelled from the spec: the external RNG (yocto_sampling.h `make_rng`,
`rand1i`, `rand2f`) is a deterministic pseudo-random stream; its internals
are abstracted as parameters, together with the selected shader (a pure
function of ray and RNG state once scene and parameters are fixed). -/
structure SampExt where
  make_rng : ℕ → ℕ → ℕ
  rand1i : ℕ → ℕ → ℕ × ℕ
  rand2f : ℕ → (ℚ × ℚ) × ℕ
  shader : RayQ → ℕ → FV4 × ℕ

/-- Embedding of `render_sample` (yocto_raytrace.cpp lines 908-925): one
sample at pixel `ij` — jitter draw, camera ray, shader invocation,
post-processing, accumulation, count increment, mean update.  Only the
entries at index `ij` are read and written. -/
def render_sample (ext : GeoExt) (sx : SampExt) (camera : CameraQ)
    (clampK : ℚ) (st : RStateQ) (ij : ℕ × ℕ) : RStateQ :=
  let draw := sx.rand2f (st.rngs ij)
  let puv := draw.1
  let ray := eval_camera ext camera
    ⟨((ij.1 : ℚ) + puv.1) / (st.sizeX : ℚ), ((ij.2 : ℚ) + puv.2) / (st.sizeY : ℚ)⟩
  let sh := sx.shader ray draw.2
  let shaded := render_sample_post sh.1 clampK
  let acc := fv4add (st.accumulation ij) shaded
  let cnt := st.samples ij + 1
  { st with
    accumulation := fun p => if p = ij then acc else st.accumulation p
    samples := fun p => if p = ij then cnt else st.samples p
    rngs := fun p => if p = ij then sh.2 else st.rngs p
    render := fun p => if p = ij then fv4divNat acc cnt else st.render p }

/-- Embedding of the image-size computation of `init_state`
(yocto_raytrace.cpp lines 930-936). -/
def init_image_size (camera : CameraQ) (resolution : ℕ) : ℕ × ℕ :=
  if camera.film.x > camera.film.y then
    (resolution, (round ((resolution : ℚ) * camera.film.y / camera.film.x)).toNat)
  else
    ((round ((resolution : ℚ) * camera.film.x / camera.film.y)).toNat, resolution)

/-- The state of the fixed initialization stream `init_rng =
make_rng(1301081)` after `n` draws of `rand1i(init_rng, 1 << 31)`
(yocto_raytrace.cpp lines 941-944). -/
def initStreamState (sx : SampExt) (n : ℕ) : ℕ :=
  (fun r => (sx.rand1i r (2 ^ 31)).2)^[n] (sx.make_rng 1301081 1)

/-- Embedding of `init_state` (yocto_raytrace.cpp lines 928-945): buffers
cleared at the camera resolution; each pixel's generator seeded from the
user seed and the fixed initialization stream advanced once per pixel in
raster (row-major) order. -/
def init_state (sx : SampExt) (camera : CameraQ) (resolution seed : ℕ) : RStateQ :=
  let size := init_image_size camera resolution
  { sizeX := size.1
    sizeY := size.2
    render := fun _ => fv4zero
    accumulation := fun _ => fv4zero
    samples := fun _ => 0
    rngs := fun ij =>
      sx.make_rng seed
        ((sx.rand1i (initStreamState sx (ij.2 * size.1 + ij.1)) (2 ^ 31)).1 / 2 + 1) }

/-- Row-major pixel order, the sequential schedule of `render_samples`
(yocto_raytrace.cpp lines 950-955). -/
def rowMajor (w h : ℕ) : List (ℕ × ℕ) :=
  (List.range h).foldr (fun j acc => ((List.range w).map fun i => (i, j)) ++ acc) []

/-- One full sweep of `render_samples` with an explicit pixel schedule.
The sequential mode is `rowMajor`; the parallel mode (`parallel_for` of the
external yocto_parallel.h, modelled from the spec) runs the same per-pixel
operation in an arbitrary order, i.e. over some permutation of the grid. -/
def render_sweep (ext : GeoExt) (sx : SampExt) (camera : CameraQ)
    (clampK : ℚ) (order : List (ℕ × ℕ)) (st : RStateQ) : RStateQ :=
  order.foldl (render_sample ext sx camera clampK) st

/-- Independent pixel updates commute: `render_sample` touches only its own
pixel's accumulation, count and RNG entries and reads only those plus the
fixed resolution. -/
theorem render_sample_comm (ext : GeoExt) (sx : SampExt) (camera : CameraQ)
    (clampK : ℚ) (st : RStateQ) (a b : ℕ × ℕ) :
    render_sample ext sx camera clampK (render_sample ext sx camera clampK st a) b =
      render_sample ext sx camera clampK (render_sample ext sx camera clampK st b) a := by
  by_cases hab : a = b
  · rw [hab]
  · have hba : ¬ b = a := fun h => hab h.symm
    unfold render_sample
    simp only [hab, hba, if_false, ite_false]
    congr 1 <;> funext p <;>
      rcases eq_or_ne p a with hpa | hpa <;> rcases eq_or_ne p b with hpb | hpb <;>
        first
          | (exact absurd (hpa.symm.trans hpb) hab)
          | simp [hpa, hpb, hab, hba]

/-- Folding the per-pixel sample over any permutation of a schedule gives
the same state. -/
theorem render_sweep_perm (ext : GeoExt) (sx : SampExt) (camera : CameraQ)
    (clampK : ℚ) {l1 l2 : List (ℕ × ℕ)} (h : l1.Perm l2) :
    ∀ st : RStateQ, render_sweep ext sx camera clampK l1 st =
      render_sweep ext sx camera clampK l2 st := by
  induction h with
  | nil => intro st; rfl
  | cons x _ ih =>
    intro st
    simp only [render_sweep, List.foldl_cons] at *
    exact ih _
  | swap x y l =>
    intro st
    simp only [render_sweep, List.foldl_cons]
    rw [render_sample_comm]
  | trans _ _ ih1 ih2 =>
    intro st
    exact (ih1 st).trans (ih2 st)

/-- C6: rendering with the same seed and inputs is deterministic and
schedule-independent: starting from `init_state` (whose per-pixel RNGs are
seeded from the global seed and the fixed per-pixel initialization stream
in raster order), running the same number of `render_samples` sweeps under
any two pixel schedules — sequential row-major order or any permutation of
the grid, as the parallel mode produces — yields identical render states,
hence bit-identical output images. -/
theorem C6_same_seed_same_image (ext : GeoExt) (sx : SampExt)
    (camera : CameraQ) (resolution seed : ℕ) (clampK : ℚ) (k : ℕ)
    (ord1 ord2 : List (ℕ × ℕ))
    (h1 : ord1.Perm (rowMajor (init_image_size camera resolution).1
      (init_image_size camera resolution).2))
    (h2 : ord2.Perm (rowMajor (init_image_size camera resolution).1
      (init_image_size camera resolution).2)) :
    (render_sweep ext sx camera clampK ord1)^[k]
        (init_state sx camera resolution seed) =
      (render_sweep ext sx camera clampK ord2)^[k]
        (init_state sx camera resolution seed) := by
  have hfun : render_sweep ext sx camera clampK ord1 =
      render_sweep ext sx camera clampK ord2 :=
    funext fun st => render_sweep_perm ext sx camera clampK (h1.trans h2.symm) st
  rw [hfun]

/-- C6 witness: a concrete 2×1 render in which the reversed (parallel-style)
schedule and the row-major (sequential) schedule agree after one sweep. -/
theorem C6_same_seed_same_image_witness :
    (render_sweep ⟨fun v => v⟩
        ⟨fun a b => a + b, fun r _ => (r, r + 1), fun r => ((0, 0), r),
          fun _ r => (fv4zero, r)⟩
        ⟨⟨⟨1,0,0⟩, ⟨0,1,0⟩, ⟨0,0,1⟩, ⟨0,0,0⟩⟩, 1/20, ⟨2, 1⟩, 0, 0⟩ 10
        [(1, 0), (0, 0)])^[1]
      (init_state ⟨fun a b => a + b, fun r _ => (r, r + 1), fun r => ((0, 0), r),
          fun _ r => (fv4zero, r)⟩
        ⟨⟨⟨1,0,0⟩, ⟨0,1,0⟩, ⟨0,0,1⟩, ⟨0,0,0⟩⟩, 1/20, ⟨2, 1⟩, 0, 0⟩ 2 7) =
    (render_sweep ⟨fun v => v⟩
        ⟨fun a b => a + b, fun r _ => (r, r + 1), fun r => ((0, 0), r),
          fun _ r => (fv4zero, r)⟩
        ⟨⟨⟨1,0,0⟩, ⟨0,1,0⟩, ⟨0,0,1⟩, ⟨0,0,0⟩⟩, 1/20, ⟨2, 1⟩, 0, 0⟩ 10
        [(0, 0), (1, 0)])^[1]
      (init_state ⟨fun a b => a + b, fun r _ => (r, r + 1), fun r => ((0, 0), r),
          fun _ r => (fv4zero, r)⟩
        ⟨⟨⟨1,0,0⟩, ⟨0,1,0⟩, ⟨0,0,1⟩, ⟨0,0,0⟩⟩, 1/20, ⟨2, 1⟩, 0, 0⟩ 2 7) := by
  apply C6_same_seed_same_image
  · have hsz : init_image_size
        ⟨⟨⟨1,0,0⟩, ⟨0,1,0⟩, ⟨0,0,1⟩, ⟨0,0,0⟩⟩, 1/20, ⟨2, 1⟩, 0, 0⟩ 2 = (2, 1) := by
      simp [init_image_size]
    rw [hsz]
    decide
  · have hsz : init_image_size
        ⟨⟨⟨1,0,0⟩, ⟨0,1,0⟩, ⟨0,0,1⟩, ⟨0,0,0⟩⟩, 1/20, ⟨2, 1⟩, 0, 0⟩ 2 = (2, 1) := by
      simp [init_image_size]
    rw [hsz]
    decide

-- ---------------------------------------------------------------------------
-- Shading integrator (yocto_raytrace.cpp lines 574-722)
-- ---------------------------------------------------------------------------

/-- Embedding of `raytrace_material`: channel values, each with an optional
modulating texture. -/
structure MaterialQ where
  emission : V3
  color : V3
  specular : ℚ
  roughness : ℚ
  metallic : ℚ
  ior : ℚ
  opacity : ℚ
  transmission : ℚ
  trdepth : ℚ
  scattering : V3
  scanisotropy : ℚ
  thin : Bool
  emission_tex : Option TexQ
  color_tex : Option TexQ
  specular_tex : Option TexQ
  metallic_tex : Option TexQ
  roughness_tex : Option TexQ
  transmission_tex : Option TexQ
  opacity_tex : Option TexQ
  scattering_tex : Option TexQ

/-- Embedding of `raytrace_instance`: frame, shape reference, material
reference. -/
structure InstanceQ where
  frame : Frame
  shape : ShapeQ
  material : MaterialQ

/-- The scene as the shading integrator sees it: the instance collection.
(Environments enter only through `eval_environment`, which is abstracted in
`ShadeExt`.) -/
structure SceneQ where
  instances : List InstanceQ

/-- The zero material of a freshly added `raytrace_material`. -/
def matDefault : MaterialQ :=
  ⟨zero3, zero3, 0, 0, 0, 0, 0, 0, 0, zero3, 0, false,
   none, none, none, none, none, none, none, none⟩

/-- The default instance (out-of-contract index reads never happen on the
inputs the theorems quantify over). -/
def instDefault : InstanceQ :=
  ⟨⟨⟨1,0,0⟩, ⟨0,1,0⟩, ⟨0,0,1⟩, ⟨0,0,0⟩⟩, ⟨[], [], [], [], [], [], []⟩, matDefault⟩

/-- Embedding of `raytrace_intersection` (hit case). -/
structure IsecQ where
  instIdx : ℕ
  element : ℕ
  uv : V2
  distance : ℚ
  deriving DecidableEq

/-- Embedding of the render parameters consumed by the shader
(modelled from the spec: the `raytrace_params` configuration of the render
API; only `bounces` and `clamp` are read by the embedded code). -/
structure RParams where
  resolution : ℕ
  samples : ℕ
  bounces : ℕ
  clamp : ℚ
  seed : ℕ
  noparallel : Bool

/-- The per-invocation random stream of `rng_state`: an abstract stream of
uniform values plus a position (modelled from the spec: the external PCG of
yocto_sampling.h). -/
def Rng2 : Type := (ℕ → ℚ) × ℕ

/-- `rand1f`: pop one uniform value. -/
def rand1fS (r : Rng2) : ℚ × Rng2 := (r.1 r.2, (r.1, r.2 + 1))

/-- `rand2f`: pop two uniform values. -/
def rand2fS (r : Rng2) : (ℚ × ℚ) × Rng2 := ((r.1 r.2, r.1 (r.2 + 1)), (r.1, r.2 + 2))

/-- Broadcast of a scalar to `vec3f`, as in yocto's `vec + float`
operators. -/
def bc3 (s : ℚ) : V3 := ⟨s, s, s⟩

/-- External routines used by `shade_raytrace` that live outside the
repository, abstracted as parameters (modelled from the spec): the
scene-level BVH query `intersect_scene_bvh` (its shape-level refinement is
settled separately), `eval_environment`'s accumulated emission (it uses
transcendental `atan2`/`acos`), and the yocto_shading.h /
yocto_geometry.h sampling and BSDF helpers, plus the float constant `pif`. -/
structure ShadeExt where
  isect : RayQ → Option IsecQ
  geo : GeoExt
  tex : TexExt
  envL : RayQ → V3
  orthonormalize : V3 → V3 → V3
  fresnel_schlick : V3 → V3 → V3 → V3
  reflect : V3 → V3 → V3
  refract : V3 → V3 → ℚ → V3
  reflectivity_to_eta : V3 → V3
  sample_hemisphere : V3 → ℚ × ℚ → V3
  microfacet_distribution : ℚ → V3 → V3 → ℚ
  microfacet_shadowing : ℚ → V3 → V3 → V3 → V3 → ℚ
  piQ : ℚ

/-- The instance selected by a scene intersection
(`scene->instances[isec.instance]`). -/
def hitObject (scene : SceneQ) (isec : IsecQ) : InstanceQ :=
  scene.instances.getD isec.instIdx instDefault

/-- The world-space hit position
(`transform_point(object->frame, eval_position(...))`). -/
def hitPosition (scene : SceneQ) (isec : IsecQ) : V3 :=
  transform_point (hitObject scene isec).frame
    (eval_position (hitObject scene isec).shape isec.element isec.uv)

/-- The continuation ray of the stochastic opacity pass-through:
`ray3f{position, ray.d}` with the default parametric range. -/
def passRay (scene : SceneQ) (ray : RayQ) (isec : IsecQ) : RayQ :=
  ⟨hitPosition scene isec, ray.d, rayEps, fltMaxQ⟩

/-- The surface opacity sampled by the shader:
`material->opacity * eval_texture(material->opacity_tex, texcoord)[0]`. -/
def surfOpacity (ext : ShadeExt) (scene : SceneQ) (isec : IsecQ) : ℚ :=
  (hitObject scene isec).material.opacity *
    (eval_texture ext.tex (hitObject scene isec).material.opacity_tex
      (eval_texcoord (hitObject scene isec).shape isec.element isec.uv)
      false false false).x

/-- The material-branch cascade of `shade_raytrace` (yocto_raytrace.cpp
lines 623-721), reached after the opacity test and the bounce-limit check:
material values are sampled, then exactly one branch — refraction, thin
transmission, polished metal, rough metal, rough plastic, or matte — fires
in the source's precedence order; each branch recurses exactly once
through `rec` (the path tracer at the remaining fuel, bounce already
incremented at every call site) and accumulates the weighted recursive
radiance onto the emission. -/
def shade_branches (ext : ShadeExt) (rec : RayQ → Rng2 → Option (V4 × Rng2))
    (ray : RayQ) (rng : Rng2) (object : InstanceQ) (position normal : V3)
    (texcoord : V2) (radiance : V3) : Option (V4 × Rng2) :=
      let color := V4.mk object.material.color.x object.material.color.y
          object.material.color.z 1 *
        eval_texture ext.tex object.material.color_tex texcoord false false false
      let transmission := object.material.transmission *
        (eval_texture ext.tex object.material.transmission_tex texcoord false false false).x
      let roughness := object.material.roughness *
        (eval_texture ext.tex object.material.roughness_tex texcoord false false false).x
      let metallic := object.material.metallic *
        (eval_texture ext.tex object.material.metallic_tex texcoord false false false).x
      let specular := object.material.specular *
        (eval_texture ext.tex object.material.specular_tex texcoord false false false).x
      if transmission ≠ 0 ∧ object.material.thin = false then
        let draw2 := rand1fS rng
        if draw2.1 < (ext.fresnel_schlick (bc3 (1/25)) normal (-ray.d)).x then
          let incoming := ext.reflect (-ray.d) normal
          match rec ⟨position, incoming, rayEps, fltMaxQ⟩ draw2.2 with
          | none => none
          | some (v, rng2) =>
            some (⟨(radiance + xyz4 v).x, (radiance + xyz4 v).y, (radiance + xyz4 v).z, 1⟩, rng2)
        else
          let incoming := ext.refract (-ray.d) normal
            (1 / (ext.reflectivity_to_eta (xyz4 color)).x)
          match rec ⟨position, incoming, rayEps, fltMaxQ⟩ draw2.2 with
          | none => none
          | some (v, rng2) =>
            let acc := radiance + xyz4 (color * v)
            some (⟨acc.x, acc.y, acc.z, 1⟩, rng2)
      else if transmission ≠ 0 then
        let draw2 := rand1fS rng
        if draw2.1 < (ext.fresnel_schlick (bc3 (1/25)) normal (-ray.d)).x then
          let incoming := ext.reflect (-ray.d) normal
          match rec ⟨position, incoming, rayEps, fltMaxQ⟩ draw2.2 with
          | none => none
          | some (v, rng2) =>
            some (⟨(radiance + xyz4 v).x, (radiance + xyz4 v).y, (radiance + xyz4 v).z, 1⟩, rng2)
        else
          let incoming := ray.d
          match rec ⟨position, incoming, rayEps, fltMaxQ⟩ draw2.2 with
          | none => none
          | some (v, rng2) =>
            let acc := radiance + xyz4 (color * v)
            some (⟨acc.x, acc.y, acc.z, 1⟩, rng2)
      else if metallic ≠ 0 ∧ roughness = 0 then
        let incoming := ext.reflect (-ray.d) normal
        match rec ⟨position, incoming, rayEps, fltMaxQ⟩ rng with
        | none => none
        | some (v, rng2) =>
          let acc := radiance +
            mul3 (ext.fresnel_schlick (xyz4 color) normal (-ray.d)) (xyz4 v)
          some (⟨acc.x, acc.y, acc.z, 1⟩, rng2)
      else if metallic ≠ 0 ∧ roughness ≠ 0 then
        let rough2 := roughness * roughness
        let draw2 := rand2fS rng
        let incoming := ext.sample_hemisphere normal draw2.1
        let halfway := ext.geo.normalize3 (-ray.d + incoming)
        match rec ⟨position, incoming, rayEps, fltMaxQ⟩ draw2.2 with
        | none => none
        | some (v, rng2) =>
          let acc := radiance +
            mul3
              (smul3 ((2 * ext.piQ) *
                  ext.microfacet_distribution rough2 normal halfway *
                  ext.microfacet_shadowing rough2 normal halfway (-ray.d) incoming /
                  (4 * dot3 normal (-ray.d) * dot3 normal incoming))
                (ext.fresnel_schlick (xyz4 color) halfway (-ray.d)))
              (xyz4 (smul4 (dot3 normal incoming) v))
          some (⟨acc.x, acc.y, acc.z, 1⟩, rng2)
      else if specular ≠ 0 then
        let rough2 := roughness * roughness
        let draw2 := rand2fS rng
        let incoming := ext.sample_hemisphere normal draw2.1
        let halfway := ext.geo.normalize3 (-ray.d + incoming)
        let f04 := (ext.fresnel_schlick (bc3 (1/25)) halfway (-ray.d)).x
        match rec ⟨position, incoming, rayEps, fltMaxQ⟩ draw2.2 with
        | none => none
        | some (v, rng2) =>
          let acc := radiance +
            smul3 (dot3 normal incoming)
              (mul3
                (smul3 (2 * ext.piQ)
                  (smul3 (1 - f04) (smul3 (1 / ext.piQ) (xyz4 color)) +
                   bc3 (f04 *
                     ext.microfacet_distribution rough2 normal halfway *
                     ext.microfacet_shadowing rough2 normal halfway (-ray.d) incoming /
                     (4 * dot3 normal (-ray.d) * dot3 normal incoming))))
                (xyz4 v))
          some (⟨acc.x, acc.y, acc.z, 1⟩, rng2)
      else
        let draw2 := rand2fS rng
        let incoming := ext.sample_hemisphere normal draw2.1
        match rec ⟨position, incoming, rayEps, fltMaxQ⟩ draw2.2 with
        | none => none
        | some (v, rng2) =>
          let acc := radiance +
            mul3 (smul3 (2 * ext.piQ / ext.piQ) (xyz4 color))
              (xyz4 (smul4 (dot3 normal incoming) v))
          some (⟨acc.x, acc.y, acc.z, 1⟩, rng2)

/-- Embedding of `shade_raytrace` (yocto_raytrace.cpp lines 574-722), the
recursive path tracer.  The C++ recursion carries no fuel; the embedding
adds an explicit fuel argument and returns `none` when the modelled
recursion exceeds it, so that termination and depth claims can be stated.
The control flow mirrors the source: environment on miss, shading-normal
correction by primitive kind, stochastic opacity pass-through (before the
bounce-limit check), bounce limit returning emission only, then the
material-branch cascade of `shade_branches`, each branch recursing exactly
once with the bounce count incremented. -/
def shade_raytrace (ext : ShadeExt) (scene : SceneQ) (params : RParams) :
    ℕ → RayQ → ℕ → Rng2 → Option (V4 × Rng2)
  | 0, _, _, _ => none
  | fuel + 1, ray, bounce, rng =>
    match ext.isect ray with
    | none =>
      let res := ext.envL ray
      some (⟨res.x, res.y, res.z, 1⟩, rng)
    | some isec =>
      let object := hitObject scene isec
      let position := hitPosition scene isec
      let normal0 := eval_normal ext.geo object.shape isec.element isec.uv
      let texcoord := eval_texcoord object.shape isec.element isec.uv
      let normal :=
        if object.shape.points ≠ [] then -ray.d
        else if object.shape.lines ≠ [] then ext.orthonormalize (-ray.d) normal0
        else if object.shape.triangles ≠ [] then
          (if dot3 (-ray.d) normal0 < 0 then -normal0 else normal0)
        else normal0
      let opacity := surfOpacity ext scene isec
      let draw1 := rand1fS rng
      if draw1.1 > opacity then
        shade_raytrace ext scene params fuel (passRay scene ray isec) (bounce + 1) draw1.2
      else
      let radiance := object.material.emission
      if bounce ≥ params.bounces then
        some (⟨radiance.x, radiance.y, radiance.z, 1⟩, draw1.2)
      else
        shade_branches ext
          (fun r g => shade_raytrace ext scene params fuel r (bounce + 1) g)
          ray draw1.2 object position normal texcoord radiance

/-- The branch cascade cannot exhaust the fuel when the recursion itself
cannot: every branch either returns directly or calls `rec` exactly once. -/
theorem shade_branches_ne_none (ext : ShadeExt)
    (rec : RayQ → Rng2 → Option (V4 × Rng2)) (ray : RayQ) (rng : Rng2)
    (object : InstanceQ) (position normal : V3) (texcoord : V2) (radiance : V3)
    (hrec : ∀ r g, rec r g ≠ none) :
    shade_branches ext rec ray rng object position normal texcoord radiance ≠ none := by
  unfold shade_branches
  intro hcontra
  simp only [] at hcontra
  repeat' split at hcontra
  all_goals first
    | (rename_i heq2
       exact absurd heq2 (hrec _ _))
    | simp at hcontra

/-- C7 (amended): when the ray hits, the stochastic opacity test passes
(the drawn value does not exceed the sampled opacity), and the bounce count
has reached the configured cap, `shade_raytrace` returns only the surface
material's own emission with alpha 1, consuming exactly the one opacity
draw — no further recursive sampling. -/
theorem C7_emission_at_bounce_cap (ext : ShadeExt) (scene : SceneQ)
    (params : RParams) (ray : RayQ) (bounce : ℕ) (rng : Rng2) (isec : IsecQ)
    (F : ℕ) (hhit : ext.isect ray = some isec)
    (hop : ¬ ((rand1fS rng).1 > surfOpacity ext scene isec))
    (hb : bounce ≥ params.bounces) (hF : 1 ≤ F) :
    shade_raytrace ext scene params F ray bounce rng =
      some (⟨(hitObject scene isec).material.emission.x,
             (hitObject scene isec).material.emission.y,
             (hitObject scene isec).material.emission.z, 1⟩, (rand1fS rng).2) := by
  obtain ⟨G, rfl⟩ : ∃ G, F = G + 1 := ⟨F - 1, by omega⟩
  simp only [shade_raytrace, hhit]
  rw [if_neg hop, if_pos hb]

-- Concrete shading scenes used to exercise the integrator.

/-- The identity frame. -/
def idFrame : Frame := ⟨⟨1,0,0⟩, ⟨0,1,0⟩, ⟨0,0,1⟩, ⟨0,0,0⟩⟩

/-- A one-triangle shape whose three vertices sit at `p`. -/
def triShapeAt (p : V3) : ShapeQ := ⟨[], [], [(0, 1, 2)], [p, p, p], [], [], []⟩

/-- A random stream that always draws 1/2. -/
def rngHalf : Rng2 := (fun _ => 1/2, 0)

/-- Render parameters with bounce cap 0. -/
def params0 : RParams := ⟨720, 512, 0, 10, 961748941, false⟩

/-- Trivial instantiations of the abstracted external routines. -/
def mkExt (isect : RayQ → Option IsecQ) : ShadeExt :=
  ⟨isect, ⟨fun v => v⟩, ⟨fun v => v⟩, fun _ => zero3, fun a _ => a,
   fun c _ _ => c, fun a _ => a, fun a _ _ => a, fun c => c, fun n _ => n,
   fun _ _ _ => 0, fun _ _ _ _ _ => 0, 3⟩

/-- The intersection record returned by the concrete oracles below. -/
def isec70 : IsecQ := ⟨0, 0, ⟨0, 0⟩, 1⟩

/-- Oracle hitting only from the world origin. -/
def ext70 : ShadeExt := mkExt (fun r => if r.o = zero3 then some isec70 else none)

/-- A fully transparent emissive material (opacity 0, emission (5,5,5)). -/
def cexMat : MaterialQ := { matDefault with emission := ⟨5, 5, 5⟩ }

/-- One fully transparent emissive triangle at (1,1,1). -/
def scene70 : SceneQ := ⟨[⟨idFrame, triShapeAt ⟨1, 1, 1⟩, cexMat⟩]⟩

/-- A camera-style ray from the origin along +x. -/
def ray70 : RayQ := ⟨zero3, ⟨1, 0, 0⟩, rayEps, fltMaxQ⟩

/-- C7 (counterexample): as stated, the claim fails: with a fully
transparent material (opacity 0) the stochastic opacity pass-through —
which precedes the bounce-limit check — recurses even though the bounce
count already reached the cap, and the result is the environment's black,
not the surface emission (5,5,5). -/
theorem C7_claim_counterexample :
    ¬ (∀ (ext : ShadeExt) (scene : SceneQ) (params : RParams) (ray : RayQ)
        (bounce : ℕ) (rng : Rng2) (isec : IsecQ) (F : ℕ),
        ext.isect ray = some isec → bounce ≥ params.bounces → 1 ≤ F →
        ∃ rng2, shade_raytrace ext scene params F ray bounce rng =
          some (⟨(hitObject scene isec).material.emission.x,
                 (hitObject scene isec).material.emission.y,
                 (hitObject scene isec).material.emission.z, 1⟩, rng2)) := by
  intro h
  have hi0 : ext70.isect ray70 = some isec70 := by
    simp [ext70, mkExt, ray70]
  have hobj : hitObject scene70 isec70 = ⟨idFrame, triShapeAt ⟨1, 1, 1⟩, cexMat⟩ := by
    simp [hitObject, scene70, isec70]
  have hopac : surfOpacity ext70 scene70 isec70 = 0 := by
    simp [surfOpacity, hobj, cexMat, matDefault, eval_texture]
  have hpass : passRay scene70 ray70 isec70 = ⟨⟨1, 1, 1⟩, ⟨1, 0, 0⟩, rayEps, fltMaxQ⟩ := by
    simp only [passRay, hitPosition, hobj, ray70]
    norm_num [triShapeAt, isec70, eval_position, interpolate_triangle, nthV3,
      transform_point, idFrame, smul3, zero3]
  have hi1 : ext70.isect ⟨⟨1, 1, 1⟩, ⟨1, 0, 0⟩, rayEps, fltMaxQ⟩ = none := by
    norm_num [ext70, mkExt, zero3]
  have hcomp : shade_raytrace ext70 scene70 params0 2 ray70 0 rngHalf =
      some (⟨0, 0, 0, 1⟩, (fun _ => 1/2, 1)) := by
    show shade_raytrace ext70 scene70 params0 (1 + 1) ray70 0 rngHalf = _
    simp only [shade_raytrace, hi0]
    rw [if_pos (by norm_num [rand1fS, rngHalf, hopac])]
    have hrng : (rand1fS rngHalf).2 = ((fun _ => 1/2 : ℕ → ℚ), 1) := rfl
    rw [hrng, hpass]
    simp only [shade_raytrace, hi1]
    simp [mkExt, ext70, zero3]
  obtain ⟨rng2, heq⟩ := h ext70 scene70 params0 ray70 0 rngHalf isec70 2 hi0
    (le_refl 0) (by norm_num)
  rw [hcomp, hobj] at heq
  have h5 := congrArg (fun o => ((o.getD (⟨0,0,0,0⟩, rngHalf)).1).x) heq
  simp [cexMat, matDefault] at h5

/-- C7 witness: the amended statement at a concrete opaque emissive
surface (opacity 1, emission (5,5,5), bounce cap 0): the shader returns
exactly the emission (5,5,5,1) after the single opacity draw. -/
theorem C7_emission_at_bounce_cap_witness :
    shade_raytrace (mkExt (fun _ => some isec70))
        ⟨[⟨idFrame, triShapeAt ⟨1, 1, 1⟩, { matDefault with emission := ⟨5, 5, 5⟩, opacity := 1 }⟩]⟩
        params0 1 ray70 0 rngHalf =
      some (⟨(hitObject ⟨[⟨idFrame, triShapeAt ⟨1, 1, 1⟩,
               { matDefault with emission := ⟨5, 5, 5⟩, opacity := 1 }⟩]⟩ isec70).material.emission.x,
             (hitObject ⟨[⟨idFrame, triShapeAt ⟨1, 1, 1⟩,
               { matDefault with emission := ⟨5, 5, 5⟩, opacity := 1 }⟩]⟩ isec70).material.emission.y,
             (hitObject ⟨[⟨idFrame, triShapeAt ⟨1, 1, 1⟩,
               { matDefault with emission := ⟨5, 5, 5⟩, opacity := 1 }⟩]⟩ isec70).material.emission.z,
             1⟩, (rand1fS rngHalf).2) := by
  apply C7_emission_at_bounce_cap
  · rfl
  · norm_num [surfOpacity, hitObject, isec70, eval_texture, rand1fS, rngHalf,
      matDefault, triShapeAt, eval_texcoord]
  · exact le_refl 0
  · norm_num

-- A family of scenes on which opacity pass-through recursion runs k deep.

/-- A translation frame along +x. -/
def transFrame (t : ℚ) : Frame := ⟨⟨1,0,0⟩, ⟨0,1,0⟩, ⟨0,0,1⟩, ⟨t, 0, 0⟩⟩

/-- A chain of `k` fully transparent triangles at x = 1, …, k. -/
def chainScene (k : ℕ) : SceneQ :=
  ⟨(List.range k).map fun (i : ℕ) => ⟨transFrame ((i : ℚ) + 1), triShapeAt zero3, matDefault⟩⟩

/-- Intersection oracle of the chain scene for rays marching along +x from
integer stations: from `x = j` (with `0 ≤ j < k`) the ray hits instance `j`
at distance 1. -/
def chainExt (k : ℕ) : ShadeExt :=
  mkExt fun r =>
    if 0 ≤ r.o.x ∧ r.o.x < (k : ℚ) then some ⟨(⌊r.o.x⌋).toNat, 0, ⟨0, 0⟩, 1⟩
    else none

/-- The ray stationed at `x = j` marching along +x. -/
def rayAt (j : ℕ) : RayQ := ⟨⟨(j : ℚ), 0, 0⟩, ⟨1, 0, 0⟩, rayEps, fltMaxQ⟩

theorem chainScene_getD {k j : ℕ} (hj : j < k) :
    (chainScene k).instances.getD j instDefault =
      ⟨transFrame ((j : ℚ) + 1), triShapeAt zero3, matDefault⟩ := by
  unfold chainScene
  rw [List.getD_eq_getElem?_getD, List.getElem?_map, List.getElem?_range hj]
  rfl

/-- Through the chain scene the shader performs one opacity pass-through
per station: with `j + F ≤ k` stations ahead, fuel `F` is exhausted before
the recursion can terminate, for every bounce count and stream position. -/
theorem chain_shade_none (k : ℕ) :
    ∀ (F j b p : ℕ), j + F ≤ k →
      shade_raytrace (chainExt k) (chainScene k) params0 F (rayAt j) b
        (fun _ => 1/2, p) = none := by
  intro F
  induction F with
  | zero => intro j b p hjk; rfl
  | succ G ih =>
    intro j b p hjk
    have hj : j < k := by omega
    have hi : (chainExt k).isect (rayAt j) = some ⟨j, 0, ⟨0, 0⟩, 1⟩ := by
      have hcast : ((j : ℚ) < (k : ℚ)) := by exact_mod_cast hj
      simp [chainExt, mkExt, rayAt, hcast]
    have hobj : hitObject (chainScene k) ⟨j, 0, ⟨0, 0⟩, 1⟩ =
        ⟨transFrame ((j : ℚ) + 1), triShapeAt zero3, matDefault⟩ := by
      simpa [hitObject] using chainScene_getD hj
    have hop : surfOpacity (chainExt k) (chainScene k) ⟨j, 0, ⟨0, 0⟩, 1⟩ = 0 := by
      simp [surfOpacity, hobj, matDefault, eval_texture]
    have hpass : passRay (chainScene k) (rayAt j) ⟨j, 0, ⟨0, 0⟩, 1⟩ = rayAt (j + 1) := by
      simp only [passRay, hitPosition, hobj, rayAt]
      norm_num [triShapeAt, eval_position, interpolate_triangle, nthV3,
        transform_point, transFrame, smul3, zero3]
    simp only [shade_raytrace, hi]
    rw [if_pos (by norm_num [rand1fS, hop])]
    rw [hpass]
    exact ih (j + 1) (b + 1) (p + 1) (by omega)

/-- C2 (counterexample): the recursion depth of `shade_raytrace` is not
bounded by any function of `params.bounces` alone: for any candidate bound
`f`, a chain of `f 0` fully transparent surfaces with bounce cap 0 forces
more than `f 0` levels of opacity pass-through recursion (the pass-through
at yocto_raytrace.cpp line 611 precedes the bounce-limit check at line
619), so fuel `f params.bounces` is exhausted. -/
theorem C2_depth_not_bounded_by_bounces :
    ¬ (∃ f : ℕ → ℕ, ∀ (ext : ShadeExt) (scene : SceneQ) (params : RParams)
        (ray : RayQ) (rng : Rng2),
        shade_raytrace ext scene params (f params.bounces) ray 0 rng ≠ none) := by
  rintro ⟨f, hf⟩
  exact hf (chainExt (f 0)) (chainScene (f 0)) params0 (rayAt 0) (fun _ => 1/2, 0)
    (chain_shade_none (f 0) (f 0) 0 0 0 (by omega))

/-- C2 (amended): `shade_raytrace` terminates on every input of the
exact-arithmetic model, with recursion depth bounded jointly by
`params.bounces` and the scene's pass-through capacity: if a variant `V`
on rays decreases across every opacity pass-through (as it does for any
actual scene, where each pass-through advances the ray origin past one of
finitely many surfaces) and is bounded by `Vmax`, then fuel
`(params.bounces + 1 - bounce) * (Vmax + 1) + V ray + 1` suffices — the
depth is `params.bounces`-bounded only once the per-scene pass-through
budget is accounted for. -/
theorem C2_terminates_with_scene_budget (ext : ShadeExt) (scene : SceneQ)
    (params : RParams) (V : RayQ → ℕ) (Vmax : ℕ)
    (hV : ∀ r isec, ext.isect r = some isec → V (passRay scene r isec) < V r)
    (hVmax : ∀ r, V r ≤ Vmax) :
    ∀ (F : ℕ) (ray : RayQ) (bounce : ℕ) (rng : Rng2),
      (params.bounces + 1 - bounce) * (Vmax + 1) + V ray + 1 ≤ F →
      shade_raytrace ext scene params F ray bounce rng ≠ none := by
  intro F
  induction F using Nat.strong_induction_on with
  | _ F ih =>
    intro ray bounce rng hF
    obtain ⟨G, rfl⟩ : ∃ G, F = G + 1 := ⟨F - 1, by omega⟩
    cases hi : ext.isect ray with
    | none => simp [shade_raytrace, hi]
    | some isec =>
      by_cases hop : (rand1fS rng).1 > surfOpacity ext scene isec
      · have hlt := hV ray isec hi
        have hle := hVmax ray
        have hmu : (params.bounces + 1 - (bounce + 1)) * (Vmax + 1) +
            V (passRay scene ray isec) + 1 ≤ G := by
          rcases le_or_lt bounce params.bounces with hb | hb
          · have e1 : params.bounces + 1 - bounce = (params.bounces - bounce) + 1 := by
              omega
            have e2 : params.bounces + 1 - (bounce + 1) = params.bounces - bounce := by
              omega
            rw [e1] at hF
            rw [e2]
            have expand : (params.bounces - bounce + 1) * (Vmax + 1) =
                (params.bounces - bounce) * (Vmax + 1) + (Vmax + 1) := by ring
            rw [expand] at hF
            generalize (params.bounces - bounce) * (Vmax + 1) = X at hF ⊢
            omega
          · have e1 : params.bounces + 1 - bounce = 0 := by omega
            have e2 : params.bounces + 1 - (bounce + 1) = 0 := by omega
            rw [e1] at hF
            rw [e2]
            simp only [zero_mul, zero_add] at hF ⊢
            omega
        have hrec := ih G (by omega) (passRay scene ray isec) (bounce + 1)
          (rand1fS rng).2 hmu
        simp only [shade_raytrace, hi]
        rw [if_pos hop]
        exact hrec
      · by_cases hb : bounce ≥ params.bounces
        · simp [shade_raytrace, hi, hop, hb]
        · have hbound : ∀ r2 : RayQ, (params.bounces + 1 - (bounce + 1)) * (Vmax + 1) +
              V r2 + 1 ≤ G := by
            intro r2
            have hle2 := hVmax r2
            have e1 : params.bounces + 1 - bounce = (params.bounces - bounce) + 1 := by
              omega
            have e2 : params.bounces + 1 - (bounce + 1) = params.bounces - bounce := by
              omega
            rw [e1] at hF
            rw [e2]
            have expand : (params.bounces - bounce + 1) * (Vmax + 1) =
                (params.bounces - bounce) * (Vmax + 1) + (Vmax + 1) := by ring
            rw [expand] at hF
            generalize (params.bounces - bounce) * (Vmax + 1) = X at hF ⊢
            omega
          simp only [shade_raytrace, hi]
          rw [if_neg hop, if_neg hb]
          exact shade_branches_ne_none _ _ _ _ _ _ _ _ _
            (fun r g => ih G (by omega) r (bounce + 1) g (hbound r))

/-- C2 witness: the termination bound applied to the empty scene (the
always-miss oracle) with the zero variant and fuel 3. -/
theorem C2_terminates_with_scene_budget_witness :
    shade_raytrace (mkExt fun _ => none) ⟨[]⟩ params0 3 ray70 0 rngHalf ≠ none := by
  apply C2_terminates_with_scene_budget (mkExt fun _ => none) ⟨[]⟩ params0
    (fun _ => 0) 0
  · intro r isec hx
    simp [mkExt] at hx
  · intro r
    exact le_refl 0
  · norm_num [params0]

-- ---------------------------------------------------------------------------
-- BVH construction (yocto_raytrace.cpp lines 207-344)
-- ---------------------------------------------------------------------------

/-- Componentwise minimum of `vec3f`. -/
def min3 (a b : V3) : V3 := ⟨min a.x b.x, min a.y b.y, min a.z b.z⟩

/-- Componentwise maximum of `vec3f`. -/
def max3 (a b : V3) : V3 := ⟨max a.x b.x, max a.y b.y, max a.z b.z⟩

/-- Componentwise order on `vec3f`. -/
def le3 (a b : V3) : Prop := a.x ≤ b.x ∧ a.y ≤ b.y ∧ a.z ≤ b.z

/-- Embedding of `bbox3f`. -/
structure Box where
  lo : V3
  hi : V3
  deriving DecidableEq

/-- The empty bounding box `invalidb3f` (min at `flt_max`, max at its
negation). -/
def invalidb3f : Box := ⟨⟨fltMaxQ, fltMaxQ, fltMaxQ⟩, ⟨-fltMaxQ, -fltMaxQ, -fltMaxQ⟩⟩

/-- Modelled from the spec: `merge(bbox3f, vec3f)` of yocto_math.h. -/
def mergeP (b : Box) (p : V3) : Box := ⟨min3 b.lo p, max3 b.hi p⟩

/-- Modelled from the spec: `merge(bbox3f, bbox3f)` of yocto_math.h. -/
def mergeB (a b : Box) : Box := ⟨min3 a.lo b.lo, max3 a.hi b.hi⟩

/-- Modelled from the spec: `center(bbox3f)`, the box midpoint. -/
def centerB (b : Box) : V3 := smul3 (1/2) (b.lo + b.hi)

/-- A point lies in a box. -/
def memB (p : V3) (b : Box) : Prop := le3 b.lo p ∧ le3 p b.hi

/-- `outer` contains `inner`, in the componentwise interval order used by
box merging. -/
def boxContains (outer inner : Box) : Prop :=
  le3 outer.lo inner.lo ∧ le3 inner.hi outer.hi

theorem boxContains_refl (b : Box) : boxContains b b :=
  ⟨⟨le_refl _, le_refl _, le_refl _⟩, ⟨le_refl _, le_refl _, le_refl _⟩⟩

theorem boxContains_trans {a b c : Box} (h1 : boxContains a b)
    (h2 : boxContains b c) : boxContains a c := by
  obtain ⟨⟨l1, l2, l3⟩, ⟨r1, r2, r3⟩⟩ := h1
  obtain ⟨⟨m1, m2, m3⟩, ⟨s1, s2, s3⟩⟩ := h2
  exact ⟨⟨le_trans l1 m1, le_trans l2 m2, le_trans l3 m3⟩,
    ⟨le_trans s1 r1, le_trans s2 r2, le_trans s3 r3⟩⟩

theorem memB_of_boxContains {p : V3} {inner outer : Box}
    (hc : boxContains outer inner) (hm : memB p inner) : memB p outer := by
  obtain ⟨⟨l1, l2, l3⟩, ⟨r1, r2, r3⟩⟩ := hc
  obtain ⟨⟨a1, a2, a3⟩, ⟨b1, b2, b3⟩⟩ := hm
  exact ⟨⟨le_trans l1 a1, le_trans l2 a2, le_trans l3 a3⟩,
    ⟨le_trans b1 r1, le_trans b2 r2, le_trans b3 r3⟩⟩

theorem boxContains_mergeB_left (a b : Box) : boxContains (mergeB a b) a := by
  refine ⟨⟨?_, ?_, ?_⟩, ⟨?_, ?_, ?_⟩⟩ <;> simp [mergeB, min3, max3]

theorem boxContains_mergeB_right (a b : Box) : boxContains (mergeB a b) b := by
  refine ⟨⟨?_, ?_, ?_⟩, ⟨?_, ?_, ?_⟩⟩ <;> simp [mergeB, min3, max3]

theorem boxContains_mergeB_mono {a b : Box} (c : Box) (h : boxContains a b) :
    boxContains (mergeB a c) b :=
  boxContains_trans (boxContains_mergeB_left a c) h

/-- Embedding of `raytrace_bvh_primitive`: bounding box, center, original
primitive index. -/
structure Rec where
  bbox : Box
  center : V3
  primitive : ℕ
  deriving DecidableEq

/-- Embedding of `raytrace_bvh_node`; the default is the value of
`nodes.emplace_back()` (modelled from the spec: zero-initialised fields
with an invalid bounding box). -/
structure Node where
  bbox : Box
  start : ℕ
  num : ℕ
  axis : ℕ
  internal : Bool
  deriving DecidableEq

instance : Inhabited Node := ⟨⟨invalidb3f, 0, 0, 0, false⟩⟩

/-- Vector indexing (`nodes[i]`). -/
def nodeAt (nodes : List Node) (i : ℕ) : Node := nodes.getD i default

/-- Vector indexing (`primitives[i]`). -/
def recAt (l : List Rec) (i : ℕ) : Rec := l.getD i ⟨invalidb3f, zero3, 0⟩

/-- `operator[]` on `vec3f` with an integer axis. -/
def getAxis (v : V3) (a : ℕ) : ℚ := if a = 0 then v.x else if a = 1 then v.y else v.z

/-- The sub-vector `primitives[s..e)`. -/
def segOf (l : List Rec) (s e : ℕ) : List Rec := (l.drop s).take (e - s)

/-- The box-union loop of `build_bvh`: `for i in [s, e): bbox = merge(bbox,
primitives[i].bbox)` starting from `invalidb3f`. -/
def segBox (l : List Rec) (s e : ℕ) : Box :=
  (segOf l s e).foldl (fun b r => mergeB b r.bbox) invalidb3f

/-- The center-union loop of `split_middle`. -/
def centerBox (l : List Rec) (s e : ℕ) : Box :=
  (segOf l s e).foldl (fun b r => mergeP b r.center) invalidb3f

/-- The split-axis selection of `split_middle` (yocto_raytrace.cpp lines
228-230): three sequential overriding tests, so the last true test wins. -/
def pickAxis (csize : V3) : ℕ :=
  if csize.z ≥ csize.x ∧ csize.z ≥ csize.y then 2
  else if csize.y ≥ csize.x ∧ csize.y ≥ csize.z then 1 else 0

/-- Embedding of `split_middle` (yocto_raytrace.cpp lines 215-246): choose
the axis of largest center extent, partition the span around the centers'
midpoint (`std::partition` produces some within-span reordering; the
stable `List.partition` is one such reordering, and the development
depends only on the span's multiset), and fall back to the median index
when the partition leaves a side empty.  Returns the reordered array, the
split position and the axis. -/
def split_middle (prims : List Rec) (s e : ℕ) : List Rec × ℕ × ℕ :=
  let mid0 := (s + e) / 2
  let cbbox := centerBox prims s e
  let csize := cbbox.hi - cbbox.lo
  if csize = zero3 then (prims, mid0, 0)
  else
    let axis := pickAxis csize
    let middle := getAxis (centerB cbbox) axis
    let part := (segOf prims s e).partition fun p =>
      decide (getAxis p.center axis < middle)
    let mid := s + part.1.length
    let prims2 := prims.take s ++ (part.1 ++ part.2) ++ prims.drop e
    if mid = s ∨ mid = e then (prims2, mid0, axis) else (prims2, mid, axis)

/-- `bvh_max_prims`, the leaf threshold. -/
def bvh_max_prims : ℕ := 4

theorem split_middle_mid_bounds (prims : List Rec) (s e : ℕ) (h : s + 4 < e) :
    s < (split_middle prims s e).2.1 ∧ (split_middle prims s e).2.1 < e := by
  have hmid0 : s < (s + e) / 2 ∧ (s + e) / 2 < e := by omega
  have hlen : ((segOf prims s e).partition fun p =>
      decide (getAxis p.center (pickAxis ((centerBox prims s e).hi -
        (centerBox prims s e).lo)) <
        getAxis (centerB (centerBox prims s e)) (pickAxis ((centerBox prims s e).hi -
          (centerBox prims s e).lo)))).1.length ≤ e - s := by
    calc ((segOf prims s e).partition _).1.length ≤ (segOf prims s e).length := by
          rw [List.partition_eq_filter_filter]
          exact List.length_filter_le _ _
      _ ≤ e - s := by
          unfold segOf
          rw [List.length_take]
          exact min_le_left _ _
  simp only [split_middle]
  split
  · simpa using hmid0
  · split
    · simpa using hmid0
    · rename_i hz hne
      push_neg at hne
      refine ⟨?_, ?_⟩ <;> simp only [] <;> omega

theorem pow3_add_lt {a b : ℕ} (ha : 1 ≤ a) (hb : 1 ≤ b) :
    3 ^ a + 3 ^ b < 3 ^ (a + b) := by
  have h1 : (3:ℕ) ^ a ≤ 3 ^ (a + b - 1) := Nat.pow_le_pow_right (by norm_num) (by omega)
  have h2 : (3:ℕ) ^ b ≤ 3 ^ (a + b - 1) := Nat.pow_le_pow_right (by norm_num) (by omega)
  have he : a + b = (a + b - 1) + 1 := by omega
  have h3 : (3:ℕ) ^ (a + b) = 3 ^ (a + b - 1) * 3 := by
    conv_lhs => rw [he]
    rw [pow_succ]
  have h4 : 0 < (3:ℕ) ^ (a + b - 1) := pow_pos (by norm_num) _
  omega

/-- Embedding of `build_bvh`'s queue-driven node loop (yocto_raytrace.cpp
lines 262-297), FIFO order: pop a span, take its box union, and either
split it (internal node whose two children are the next two freshly
emplaced, hence contiguous, node indices) or close it as a leaf. -/
def buildLoop (nodes : List Node) (prims : List Rec)
    (queue : List (ℕ × ℕ × ℕ)) : List Node × List Rec :=
  match queue with
  | [] => (nodes, prims)
  | (nodeid, s, e) :: rest =>
    let bbox := segBox prims s e
    if h : bvh_max_prims < e - s then
      let sm := split_middle prims s e
      let nd : Node := ⟨bbox, nodes.length, 2, sm.2.2, true⟩
      buildLoop (nodes.set nodeid nd ++ [default, default]) sm.1
        (rest ++ [(nodes.length, s, sm.2.1), (nodes.length + 1, sm.2.1, e)])
    else
      buildLoop (nodes.set nodeid ⟨bbox, s, e - s, 0, false⟩) prims rest
termination_by (queue.map fun q => 3 ^ (q.2.2 - q.2.1)).sum
decreasing_by
  · simp only [List.map_append, List.sum_append, List.map_cons, List.sum_cons,
      List.map_nil, List.sum_nil]
    have hb := split_middle_mid_bounds prims s e (by
      simp only [bvh_max_prims] at h
      omega)
    have hp := pow3_add_lt (a := (split_middle prims s e).2.1 - s)
      (b := e - (split_middle prims s e).2.1) (by omega) (by omega)
    have heq : (split_middle prims s e).2.1 - s + (e - (split_middle prims s e).2.1) =
        e - s := by omega
    rw [heq] at hp
    omega
  · simp only [List.map_cons, List.sum_cons]
    have : 0 < (3:ℕ) ^ (e - s) := pow_pos (by norm_num) _
    omega

/-- Embedding of `build_bvh` (yocto_raytrace.cpp lines 252-301): one
default-constructed root node, then the queue loop over the full span. -/
def build_bvh (primitives : List Rec) : List Node × List Rec :=
  buildLoop [default] primitives [(0, 0, primitives.length)]

-- List indexing helper lemmas.

theorem nodeAt_set_self {nodes : List Node} {i : ℕ} (h : i < nodes.length)
    (nd : Node) : nodeAt (nodes.set i nd) i = nd := by
  simp [nodeAt, List.getD_eq_getElem?_getD, List.getElem?_set_self, h]

theorem nodeAt_set_ne {nodes : List Node} {i j : ℕ} (h : j ≠ i) (nd : Node) :
    nodeAt (nodes.set i nd) j = nodeAt nodes j := by
  simp [nodeAt, List.getD_eq_getElem?_getD, List.getElem?_set_ne (Ne.symm h)]

theorem nodeAt_append_lt {l l2 : List Node} {i : ℕ} (h : i < l.length) :
    nodeAt (l ++ l2) i = nodeAt l i := by
  simp [nodeAt, List.getD_eq_getElem?_getD, List.getElem?_append_left h]

theorem nodeAt_append_pair_fst (l : List Node) (a b : Node) :
    nodeAt (l ++ [a, b]) l.length = a := by
  simp [nodeAt, List.getD_eq_getElem?_getD, List.getElem?_append_right (le_refl l.length)]

theorem nodeAt_append_pair_snd (l : List Node) (a b : Node) :
    nodeAt (l ++ [a, b]) (l.length + 1) = b := by
  have h : l.length ≤ l.length + 1 := by omega
  simp [nodeAt, List.getD_eq_getElem?_getD, List.getElem?_append_right h]

theorem segOf_getElem? {l : List Rec} {s e i : ℕ} (h1 : s ≤ i) (h2 : i < e) :
    (segOf l s e)[i - s]? = l[i]? := by
  unfold segOf
  rw [List.getElem?_take_of_lt (by omega), List.getElem?_drop]
  congr 1
  omega

theorem recAt_mem_segOf {l : List Rec} {s e i : ℕ} (h1 : s ≤ i) (h2 : i < e)
    (h3 : i < l.length) : recAt l i ∈ segOf l s e := by
  have h4 : (segOf l s e)[i - s]? = some (recAt l i) := by
    rw [segOf_getElem? h1 h2, List.getElem?_eq_getElem h3]
    simp [recAt, List.getD_eq_getElem?_getD, List.getElem?_eq_getElem h3]
  exact List.getElem?_mem h4

-- Box-fold lemmas: the box union contains every contributing box.

theorem foldl_mergeB_expands (L : List Rec) :
    ∀ b0 : Box, boxContains (L.foldl (fun b r => mergeB b r.bbox) b0) b0 := by
  induction L with
  | nil => intro b0; exact boxContains_refl b0
  | cons x L ih =>
    intro b0
    exact boxContains_trans (ih (mergeB b0 x.bbox)) (boxContains_mergeB_left b0 x.bbox)

theorem foldl_mergeB_contains (L : List Rec) :
    ∀ (b0 : Box) (r : Rec), r ∈ L →
      boxContains (L.foldl (fun b r => mergeB b r.bbox) b0) r.bbox := by
  induction L with
  | nil => intro b0 r hr; cases hr
  | cons x L ih =>
    intro b0 r hr
    rcases List.mem_cons.mp hr with h | h
    · subst h
      exact boxContains_trans (foldl_mergeB_expands L (mergeB b0 r.bbox))
        (boxContains_mergeB_right b0 r.bbox)
    · exact ih (mergeB b0 x.bbox) r h

theorem segBox_contains {prims : List Rec} {s e i : ℕ} (h1 : s ≤ i) (h2 : i < e)
    (h3 : i < prims.length) :
    boxContains (segBox prims s e) (recAt prims i).bbox :=
  foldl_mergeB_contains _ _ _ (recAt_mem_segOf h1 h2 h3)

-- Structure of the array reordering performed by split_middle.

theorem split_middle_cases (prims : List Rec) (s e : ℕ) :
    (split_middle prims s e).1 = prims ∨
    ∃ l2 : List Rec, (split_middle prims s e).1 =
        prims.take s ++ l2 ++ prims.drop e ∧ l2.Perm (segOf prims s e) := by
  have hperm : ∀ p : Rec → Bool,
      List.Perm (((segOf prims s e).partition p).1 ++ ((segOf prims s e).partition p).2)
        (segOf prims s e) := by
    intro p
    rw [List.partition_eq_filter_filter]
    exact List.filter_append_perm p (segOf prims s e)
  simp only [split_middle]
  split
  · left; rfl
  · right
    split
    · exact ⟨_, rfl, hperm _⟩
    · exact ⟨_, rfl, hperm _⟩

theorem take_seg_drop {prims : List Rec} {s e : ℕ} (hs : s ≤ e)
    (he : e ≤ prims.length) :
    prims.take s ++ segOf prims s e ++ prims.drop e = prims := by
  unfold segOf
  have hd : (prims.drop s).drop (e - s) = prims.drop e := by
    rw [List.drop_drop]
    congr 1
    omega
  rw [List.append_assoc, ← hd, List.take_append_drop, List.take_append_drop]

theorem split_middle_perm {prims : List Rec} {s e : ℕ} (hs : s ≤ e)
    (he : e ≤ prims.length) : (split_middle prims s e).1.Perm prims := by
  rcases split_middle_cases prims s e with h | ⟨l2, h, hp⟩
  · rw [h]
  · rw [h]
    have hstep : List.Perm (prims.take s ++ l2 ++ prims.drop e)
        (prims.take s ++ segOf prims s e ++ prims.drop e) :=
      (hp.append_left _).append_right _
    rw [take_seg_drop hs he] at hstep
    exact hstep

theorem split_middle_length {prims : List Rec} {s e : ℕ} (hs : s ≤ e)
    (he : e ≤ prims.length) :
    (split_middle prims s e).1.length = prims.length :=
  (split_middle_perm hs he).length_eq

theorem split_middle_outside {prims : List Rec} {s e : ℕ} (hs : s ≤ e)
    (he : e ≤ prims.length) {i : ℕ} (hi : i < s ∨ e ≤ i) :
    recAt (split_middle prims s e).1 i = recAt prims i := by
  rcases split_middle_cases prims s e with h | ⟨l2, h, hp⟩
  · rw [h]
  · have hlen2 : l2.length = e - s := by
      rw [hp.length_eq]
      unfold segOf
      rw [List.length_take, List.length_drop]
      omega
    have hlents : (prims.take s).length = s := by
      rw [List.length_take]
      omega
    rw [h]
    unfold recAt
    rw [List.getD_eq_getElem?_getD, List.getD_eq_getElem?_getD]
    congr 1
    rcases hi with hi | hi
    · rw [List.getElem?_append_left, List.getElem?_append_left,
        List.getElem?_take_of_lt hi]
      · omega
      · rw [List.length_append]
        omega
    · have hge : (prims.take s ++ l2).length ≤ i := by
        rw [List.length_append]
        omega
      rw [List.getElem?_append_right hge, List.getElem?_drop]
      congr 1
      rw [List.length_append]
      omega

theorem split_middle_inside {prims : List Rec} {s e : ℕ} (hs : s ≤ e)
    (he : e ≤ prims.length) {i : ℕ} (h1 : s ≤ i) (h2 : i < e) :
    ∃ j, s ≤ j ∧ j < e ∧ j < prims.length ∧
      recAt (split_middle prims s e).1 i = recAt prims j := by
  rcases split_middle_cases prims s e with h | ⟨l2, h, hp⟩
  · exact ⟨i, h1, h2, by omega, by rw [h]⟩
  · have hlen2 : l2.length = e - s := by
      rw [hp.length_eq]
      unfold segOf
      rw [List.length_take, List.length_drop]
      omega
    have hlents : (prims.take s).length = s := by
      rw [List.length_take]
      omega
    have hidx : i - s < l2.length := by omega
    have hmem : l2[i - s] ∈ segOf prims s e := hp.mem_iff.mp (l2.getElem_mem hidx)
    obtain ⟨j0, hj0, hj0eq⟩ := List.getElem_of_mem hmem
    have hseglen : (segOf prims s e).length = e - s := by
      unfold segOf
      rw [List.length_take, List.length_drop]
      omega
    refine ⟨s + j0, by omega, by omega, by omega, ?_⟩
    rw [h]
    unfold recAt
    rw [List.getD_eq_getElem?_getD, List.getD_eq_getElem?_getD]
    congr 1
    have hlt : i < (prims.take s ++ l2).length := by
      rw [List.length_append]
      omega
    rw [List.getElem?_append_left hlt, List.getElem?_append_right (by omega)]
    have hgoal : l2[i - (prims.take s).length]? = (segOf prims s e)[j0]? := by
      rw [hlents]
      rw [List.getElem?_eq_getElem hidx, List.getElem?_eq_getElem hj0, hj0eq]
    rw [hgoal, ← segOf_getElem? (by omega : s ≤ s + j0) (by omega : s + j0 < e)]
    congr 1
    omega

-- The build invariant: every finished node carries a primitive range whose
-- boxes it bounds; queue entries carry pairwise disjoint pending ranges.

/-- A pending queue entry is well formed: allocated node id, ordered range
inside the array, and the ghost range map agrees with it. -/
def QOK (nodes : List Node) (out : List Rec) (R : ℕ → ℕ × ℕ)
    (q : ℕ × ℕ × ℕ) : Prop :=
  q.1 < nodes.length ∧ q.2.1 ≤ q.2.2 ∧ q.2.2 ≤ out.length ∧ R q.1 = (q.2.1, q.2.2)

/-- A finished node, relative to the ghost range map `R`: an internal node
points to two contiguous later children whose ranges split its own; a leaf
stores its range directly; and its box bounds every primitive box in its
range. -/
def DoneNode (nodes : List Node) (out : List Rec) (R : ℕ → ℕ × ℕ)
    (id : ℕ) : Prop :=
  (R id).1 ≤ (R id).2 ∧ (R id).2 ≤ out.length ∧
  ((nodeAt nodes id).internal = true →
    id < (nodeAt nodes id).start ∧ (nodeAt nodes id).start + 1 < nodes.length ∧
    (R ((nodeAt nodes id).start)).1 = (R id).1 ∧
    (R ((nodeAt nodes id).start + 1)).1 = (R ((nodeAt nodes id).start)).2 ∧
    (R ((nodeAt nodes id).start + 1)).2 = (R id).2 ∧
    (R id).1 ≤ (R ((nodeAt nodes id).start)).2 ∧
    (R ((nodeAt nodes id).start)).2 ≤ (R id).2) ∧
  ((nodeAt nodes id).internal = false →
    (nodeAt nodes id).start = (R id).1 ∧
    (nodeAt nodes id).num = (R id).2 - (R id).1) ∧
  (∀ i, (R id).1 ≤ i → i < (R id).2 →
    boxContains (nodeAt nodes id).bbox (recAt out i).bbox)

/-- Disjointness of two pending ranges. -/
def disjQ (a b : ℕ × ℕ × ℕ) : Prop := a.2.2 ≤ b.2.1 ∨ b.2.2 ≤ a.2.1

/-- The loop invariant of `build_bvh`. -/
def Inv (nodes : List Node) (out : List Rec) (queue : List (ℕ × ℕ × ℕ))
    (R : ℕ → ℕ × ℕ) : Prop :=
  (∀ q ∈ queue, QOK nodes out R q) ∧
  (queue.map fun q => q.1).Nodup ∧
  queue.Pairwise disjQ ∧
  (∀ id, id < nodes.length → id ∉ (queue.map fun q => q.1) →
    DoneNode nodes out R id) ∧
  (∀ q ∈ queue, ∀ id, id < nodes.length → id ∉ (queue.map fun q => q.1) →
    ((R id).1 ≤ q.2.1 ∧ q.2.2 ≤ (R id).2) ∨ q.2.2 ≤ (R id).1 ∨ (R id).2 ≤ q.2.1)

theorem DoneNode_mono {nodes1 nodes2 : List Node} {out1 out2 : List Rec}
    {R1 R2 : ℕ → ℕ × ℕ} {id : ℕ} (h1 : nodeAt nodes2 id = nodeAt nodes1 id)
    (h2 : nodes1.length ≤ nodes2.length)
    (h3 : ∀ i, (R1 id).1 ≤ i → i < (R1 id).2 →
      boxContains (nodeAt nodes1 id).bbox (recAt out2 i).bbox)
    (h4 : out1.length ≤ out2.length)
    (hid : id < nodes1.length)
    (hR : ∀ j, j < nodes1.length → R2 j = R1 j)
    (hD : DoneNode nodes1 out1 R1 id) : DoneNode nodes2 out2 R2 id := by
  unfold DoneNode at *
  obtain ⟨d1, d2, d3, d4, d5⟩ := hD
  rw [h1, hR id hid]
  refine ⟨d1, le_trans d2 h4, ?_, d4, h3⟩
  intro hint
  obtain ⟨e1, e2, e3, e4, e5, e6, e7⟩ := d3 hint
  rw [hR _ (by omega), hR _ (by omega)]
  exact ⟨e1, by omega, e3, e4, e5, e6, e7⟩

theorem buildLoop_spec (nodes : List Node) (prims : List Rec)
    (queue : List (ℕ × ℕ × ℕ)) :
    ∀ R : ℕ → ℕ × ℕ, Inv nodes prims queue R →
    ∃ R2 : ℕ → ℕ × ℕ,
      (∀ id, id < nodes.length → R2 id = R id) ∧
      nodes.length ≤ (buildLoop nodes prims queue).1.length ∧
      List.Perm (buildLoop nodes prims queue).2 prims ∧
      (∀ id, id < (buildLoop nodes prims queue).1.length →
        DoneNode (buildLoop nodes prims queue).1 (buildLoop nodes prims queue).2
          R2 id) := by
  induction nodes, prims, queue using buildLoop.induct with
  | case1 nodes prims =>
    intro R hInv
    rw [buildLoop]
    exact ⟨R, fun id _ => rfl, le_refl _, List.Perm.refl _,
      fun id hid => hInv.2.2.2.1 id hid (by simp)⟩
  | case2 nodes prims nodeid s e rest bbox h sm nd ih =>
    intro R hInv
    obtain ⟨hQ, hN, hP, hD, hS⟩ := hInv
    rw [List.map_cons] at hN
    obtain ⟨hidlt, hse, helen, hRid⟩ := hQ (nodeid, s, e) (List.mem_cons_self _ _)
    dsimp only at hidlt hse helen hRid
    have hNid : nodeid ∉ rest.map fun q => q.1 := (List.nodup_cons.mp hN).1
    have hse45 : s + 4 < e := by
      simp only [bvh_max_prims] at h
      omega
    have hmid1 : s < sm.2.1 := (split_middle_mid_bounds prims s e hse45).1
    have hmid2 : sm.2.1 < e := (split_middle_mid_bounds prims s e hse45).2
    have hplen : sm.1.length = prims.length := split_middle_length hse helen
    have hpperm : sm.1.Perm prims := split_middle_perm hse helen
    have hout : ∀ i : ℕ, i < s ∨ e ≤ i → recAt sm.1 i = recAt prims i :=
      fun i hi => split_middle_outside hse helen hi
    have hins : ∀ i : ℕ, s ≤ i → i < e → ∃ j, s ≤ j ∧ j < e ∧ j < prims.length ∧
        recAt sm.1 i = recAt prims j :=
      fun i h1 h2 => split_middle_inside hse helen h1 h2
    have hrestlt : ∀ q ∈ rest, q.1 < nodes.length :=
      fun q hq => (hQ q (List.mem_cons_of_mem _ hq)).1
    have hrestdis : ∀ q ∈ rest, disjQ (nodeid, s, e) q :=
      (List.pairwise_cons.mp hP).1
    have hnd : nd = ⟨bbox, nodes.length, 2, sm.2.2, true⟩ := rfl
    have hlenset : (nodes.set nodeid nd).length = nodes.length :=
      List.length_set _ _ _
    have hlen2 : ((nodes.set nodeid nd) ++ [default, default]).length =
        nodes.length + 2 := by
      rw [List.length_append, hlenset]
      rfl
    set R2 : ℕ → ℕ × ℕ := fun id =>
      if id = nodes.length then (s, sm.2.1)
      else if id = nodes.length + 1 then (sm.2.1, e) else R id with hR2
    have hR2old : ∀ j, j < nodes.length → R2 j = R j := by
      intro j hj
      have hj1 : j ≠ nodes.length := by omega
      have hj2 : j ≠ nodes.length + 1 := by omega
      simp [hR2, hj1, hj2]
    have hR2L : R2 nodes.length = (s, sm.2.1) := by
      simp [hR2]
    have hR2L1 : R2 (nodes.length + 1) = (sm.2.1, e) := by
      have hne : nodes.length + 1 ≠ nodes.length := by omega
      simp [hR2, hne]
    have hnodeAt : ∀ j, j < nodes.length → j ≠ nodeid →
        nodeAt ((nodes.set nodeid nd) ++ [default, default]) j = nodeAt nodes j := by
      intro j hj hne
      rw [nodeAt_append_lt (by rw [hlenset]; exact hj), nodeAt_set_ne hne]
    have hnodeAtSelf : nodeAt ((nodes.set nodeid nd) ++ [default, default]) nodeid =
        nd := by
      rw [nodeAt_append_lt (by rw [hlenset]; exact hidlt), nodeAt_set_self hidlt]
    have hInv2 : Inv ((nodes.set nodeid nd) ++ [default, default]) sm.1
        (rest ++ [(nodes.length, s, sm.2.1), (nodes.length + 1, sm.2.1, e)]) R2 := by
      refine ⟨?_, ?_, ?_, ?_, ?_⟩
      · -- QOK for every queue entry
        intro q hq
        rcases List.mem_append.mp hq with hq | hq
        · obtain ⟨k1, k2, k3, k4⟩ := hQ q (List.mem_cons_of_mem _ hq)
          refine ⟨by rw [hlen2]; omega, k2, by rw [hplen]; exact k3, ?_⟩
          rw [hR2old q.1 k1]
          exact k4
        · rcases List.mem_cons.mp hq with hq | hq
          · subst hq
            refine ⟨?_, ?_, ?_, ?_⟩ <;> dsimp only
            · rw [hlen2]; omega
            · omega
            · rw [hplen]; omega
            · exact hR2L
          · rcases List.mem_cons.mp hq with hq | hq
            · subst hq
              refine ⟨?_, ?_, ?_, ?_⟩ <;> dsimp only
              · rw [hlen2]; omega
              · omega
              · rw [hplen]; omega
              · exact hR2L1
            · cases hq
      · -- distinct pending ids
        rw [List.map_append]
        rw [List.nodup_append]
        refine ⟨(List.nodup_cons.mp hN).2, by simp, ?_⟩
        intro a ha
        obtain ⟨q, hq, rfl⟩ := List.mem_map.mp ha
        have hqlt := hrestlt q hq
        intro hfalse
        simp at hfalse
        rcases hfalse with h1 | h1 <;> omega
      · -- pairwise disjoint pending ranges
        rw [List.pairwise_append]
        refine ⟨(List.pairwise_cons.mp hP).2, ?_, ?_⟩
        · refine List.pairwise_cons.mpr ⟨?_, ?_⟩
          · intro b hb
            rcases List.mem_cons.mp hb with hb | hb
            · subst hb
              left
              exact le_refl _
            · cases hb
          · exact List.pairwise_singleton _ _
        · intro a ha b hb
          have hda := hrestdis a ha
          dsimp only [disjQ] at hda
          rcases List.mem_cons.mp hb with hb | hb
          · subst hb
            dsimp only [disjQ]
            omega
          · rcases List.mem_cons.mp hb with hb | hb
            · subst hb
              dsimp only [disjQ]
              omega
            · cases hb
      · -- every finished node is Done
        intro id hid hidq
        rw [hlen2] at hid
        rw [List.map_append, List.map_cons, List.map_cons, List.map_nil] at hidq
        have hidq1 : id ∉ rest.map fun q => q.1 := fun hmem =>
          hidq (List.mem_append.mpr (Or.inl hmem))
        have hidne1 : id ≠ nodes.length := by
          intro hfalse
          exact hidq (List.mem_append.mpr (Or.inr (by simp [hfalse])))
        have hidne2 : id ≠ nodes.length + 1 := by
          intro hfalse
          exact hidq (List.mem_append.mpr (Or.inr (by simp [hfalse])))
        have hidlt2 : id < nodes.length := by omega
        by_cases hcase : id = nodeid
        · subst hcase
          unfold DoneNode
          rw [hnodeAtSelf, hR2old id hidlt2, hRid, hnd]
          dsimp only
          refine ⟨by omega, by rw [hplen]; omega, ?_, ?_, ?_⟩
          · intro _
            rw [hR2L, hR2L1]
            rw [hlen2]
            refine ⟨hidlt2, by omega, rfl, rfl, rfl, by omega, by omega⟩
          · intro hfalse
            simp at hfalse
          · intro i hi1 hi2
            rcases hins i hi1 hi2 with ⟨j, hj1, hj2, hj3, hjeq⟩
            rw [hjeq]
            exact segBox_contains hj1 hj2 hj3
        · have hidq2 : id ∉ (((nodeid, s, e) :: rest).map fun q => q.1) := by
            simp only [List.map_cons, List.mem_cons]
            push_neg
            exact ⟨hcase, fun hmem => hidq1 hmem⟩
          have hDold := hD id hidlt2 hidq2
          have hcontain : ∀ i, (R id).1 ≤ i → i < (R id).2 →
              boxContains (nodeAt nodes id).bbox (recAt sm.1 i).bbox := by
            intro i hi1 hi2
            rcases hS (nodeid, s, e) (List.mem_cons_self _ _) id hidlt2 hidq2 with
              hsub | hdis | hdis
            · dsimp only at hsub
              by_cases hmidcase : s ≤ i ∧ i < e
              · rcases hins i hmidcase.1 hmidcase.2 with ⟨j, hj1, hj2, hj3, hjeq⟩
                rw [hjeq]
                exact hDold.2.2.2.2 j (by omega) (by omega)
              · rw [hout i (by omega)]
                exact hDold.2.2.2.2 i hi1 hi2
            · dsimp only at hdis
              rw [hout i (by omega)]
              exact hDold.2.2.2.2 i hi1 hi2
            · dsimp only at hdis
              rw [hout i (by omega)]
              exact hDold.2.2.2.2 i hi1 hi2
          refine DoneNode_mono (hnodeAt id hidlt2 hcase) ?_ hcontain ?_ hidlt2
            hR2old hDold
          · rw [hlen2]; omega
          · rw [hplen]
      · -- pending ranges nest into or avoid finished ranges
        intro q hq id hid hidq
        rw [hlen2] at hid
        rw [List.map_append, List.map_cons, List.map_cons, List.map_nil] at hidq
        have hidq1 : id ∉ rest.map fun q => q.1 := fun hmem =>
          hidq (List.mem_append.mpr (Or.inl hmem))
        have hidne1 : id ≠ nodes.length := by
          intro hfalse
          exact hidq (List.mem_append.mpr (Or.inr (by simp [hfalse])))
        have hidne2 : id ≠ nodes.length + 1 := by
          intro hfalse
          exact hidq (List.mem_append.mpr (Or.inr (by simp [hfalse])))
        have hidlt2 : id < nodes.length := by omega
        rw [hR2old id hidlt2]
        by_cases hcase : id = nodeid
        · subst hcase
          rw [hRid]
          dsimp only
          rcases List.mem_append.mp hq with hq | hq
          · have hda := hrestdis q hq
            dsimp only [disjQ] at hda
            omega
          · rcases List.mem_cons.mp hq with hq | hq
            · subst hq
              dsimp only
              omega
            · rcases List.mem_cons.mp hq with hq | hq
              · subst hq
                dsimp only
                omega
              · cases hq
        · have hidq2 : id ∉ (((nodeid, s, e) :: rest).map fun q => q.1) := by
            simp only [List.map_cons, List.mem_cons]
            push_neg
            exact ⟨hcase, fun hmem => hidq1 hmem⟩
          rcases List.mem_append.mp hq with hq | hq
          · exact hS q (List.mem_cons_of_mem _ hq) id hidlt2 hidq2
          · have hhead := hS (nodeid, s, e) (List.mem_cons_self _ _) id hidlt2 hidq2
            dsimp only at hhead
            rcases List.mem_cons.mp hq with hq | hq
            · subst hq
              dsimp only
              omega
            · rcases List.mem_cons.mp hq with hq | hq
              · subst hq
                dsimp only
                omega
              · cases hq
    obtain ⟨R3, hagree3, hlen3, hperm3, hdone3⟩ := ih R2 hInv2
    have hagree4 : ∀ id, id < nodes.length → R3 id = R id := by
      intro id hid
      rw [hagree3 id (by rw [hlen2]; omega)]
      exact hR2old id hid
    have hfin : nodes.length ≤ (buildLoop (nodes.set nodeid nd ++ [default, default])
        sm.1 (rest ++ [(nodes.length, s, sm.2.1), (nodes.length + 1, sm.2.1, e)])).1.length := by
      rw [hlen2] at hlen3
      omega
    rw [buildLoop]
    rw [dif_pos h]
    exact ⟨R3, hagree4, hfin, hperm3.trans hpperm, hdone3⟩
  | case3 nodes prims nodeid s e rest bbox h ih =>
    intro R hInv
    obtain ⟨hQ, hN, hP, hD, hS⟩ := hInv
    rw [List.map_cons] at hN
    have hQh := hQ (nodeid, s, e) (List.mem_cons_self _ _)
    obtain ⟨hidlt, hse, helen, hRid⟩ := hQh
    have hNid : nodeid ∉ rest.map fun q => q.1 := (List.nodup_cons.mp hN).1
    have hlenset : (nodes.set nodeid ⟨segBox prims s e, s, e - s, 0, false⟩).length =
        nodes.length := List.length_set _ _ _
    have hInv2 : Inv (nodes.set nodeid ⟨segBox prims s e, s, e - s, 0, false⟩)
        prims rest R := by
      refine ⟨?_, ?_, ?_, ?_, ?_⟩
      · intro q hq
        have := hQ q (List.mem_cons_of_mem _ hq)
        exact ⟨by rw [hlenset]; exact this.1, this.2.1, this.2.2.1, this.2.2.2⟩
      · exact (List.nodup_cons.mp hN).2
      · exact (List.pairwise_cons.mp hP).2
      · intro id hid hidq
        rw [hlenset] at hid
        by_cases hcase : id = nodeid
        · subst hcase
          unfold DoneNode
          rw [nodeAt_set_self hid, hRid]
          refine ⟨hse, helen, ?_, ?_, ?_⟩
          · intro hfalse
            simp at hfalse
          · intro _
            exact ⟨rfl, rfl⟩
          · intro i hi1 hi2
            exact segBox_contains hi1 hi2 (by omega)
        · have hidq2 : id ∉ (((nodeid, s, e) :: rest).map fun q => q.1) := by
            simp only [List.map_cons, List.mem_cons]
            push_neg
            exact ⟨hcase, fun hmem => hidq hmem⟩
          have hDold := hD id hid hidq2
          exact DoneNode_mono (nodeAt_set_ne hcase _) (le_of_eq hlenset.symm)
            (fun i hi1 hi2 => hDold.2.2.2.2 i hi1 hi2) (le_refl _) hid
            (fun _ _ => rfl) hDold
      · intro q hq id hid hidq
        rw [hlenset] at hid
        by_cases hcase : id = nodeid
        · subst hcase
          rw [hRid]
          have hdis := (List.pairwise_cons.mp hP).1 q hq
          rcases hdis with hd1 | hd2
          · right; right; exact hd1
          · right; left; exact hd2
        · have hidq2 : id ∉ (((nodeid, s, e) :: rest).map fun q => q.1) := by
            simp only [List.map_cons, List.mem_cons]
            push_neg
            exact ⟨hcase, fun hmem => hidq hmem⟩
          exact hS q (List.mem_cons_of_mem _ hq) id hid hidq2
    obtain ⟨R2, hagree, hlen2, hperm2, hdone2⟩ := ih R hInv2
    rw [buildLoop]
    rw [dif_neg h]
    exact ⟨R2, fun id hid => hagree id (by rw [hlenset]; exact hid),
      le_trans (le_of_eq hlenset.symm) hlen2, hperm2, hdone2⟩

theorem build_bvh_spec (recs : List Rec) :
    ∃ R : ℕ → ℕ × ℕ,
      R 0 = (0, recs.length) ∧
      1 ≤ (build_bvh recs).1.length ∧
      List.Perm (build_bvh recs).2 recs ∧
      ∀ id, id < (build_bvh recs).1.length →
        DoneNode (build_bvh recs).1 (build_bvh recs).2 R id := by
  have hInv : Inv [default] recs [(0, 0, recs.length)] fun _ => (0, recs.length) := by
    refine ⟨?_, ?_, ?_, ?_, ?_⟩
    · intro q hq
      rcases List.mem_cons.mp hq with hq | hq
      · subst hq
        exact ⟨by simp, by dsimp only; omega, le_refl _, rfl⟩
      · cases hq
    · simp
    · exact List.pairwise_singleton _ _
    · intro id hid hidq
      exfalso
      apply hidq
      simp at hid
      simp [hid]
    · intro q hq id hid hidq
      exfalso
      apply hidq
      simp at hid
      simp [hid]
  obtain ⟨R2, hagree, hlen, hperm, hdone⟩ :=
    buildLoop_spec [default] recs [(0, 0, recs.length)] (fun _ => (0, recs.length)) hInv
  unfold build_bvh
  refine ⟨R2, ?_, ?_, hperm, hdone⟩
  · rw [hagree 0 (by simp)]
  · exact le_trans (by simp) hlen

/-- The primitive index range covered by the subtree rooted at a node, read
off the finished tree: a leaf covers its stored span, an internal node
covers the concatenation of its two children's spans. -/
def subRange (nodes : List Node) (nid : ℕ) : ℕ × ℕ :=
  if hlt : nid < nodes.length then
    if hin : (nodeAt nodes nid).internal = true ∧ nid < (nodeAt nodes nid).start ∧
        (nodeAt nodes nid).start + 1 < nodes.length then
      ((subRange nodes (nodeAt nodes nid).start).1,
       (subRange nodes ((nodeAt nodes nid).start + 1)).2)
    else ((nodeAt nodes nid).start, (nodeAt nodes nid).start + (nodeAt nodes nid).num)
  else (0, 0)
termination_by nodes.length - nid
decreasing_by
  · omega
  · omega

theorem subRange_eq_of_done (nodes : List Node) (out : List Rec)
    (R : ℕ → ℕ × ℕ) (hall : ∀ id, id < nodes.length → DoneNode nodes out R id) :
    ∀ k id, nodes.length - id ≤ k → id < nodes.length → subRange nodes id = R id := by
  intro k
  induction k with
  | zero =>
    intro id hk hid
    omega
  | succ k ih =>
    intro id hk hid
    have hD := hall id hid
    rw [subRange]
    rw [dif_pos hid]
    cases hI : (nodeAt nodes id).internal with
    | true =>
      obtain ⟨e1, e2, e3, e4, e5, e6, e7⟩ := hD.2.2.1 hI
      rw [dif_pos ⟨rfl, e1, e2⟩]
      rw [ih ((nodeAt nodes id).start) (by omega) (by omega)]
      rw [ih ((nodeAt nodes id).start + 1) (by omega) (by omega)]
      rw [e3, e5]
    | false =>
      rw [dif_neg (by simp [hI])]
      obtain ⟨f1, f2⟩ := hD.2.2.2.1 hI
      rw [f1, f2]
      have hle := hD.1
      rw [show (R id).1 + ((R id).2 - (R id).1) = (R id).2 from by omega]

/-- C5: for every tree produced by `build_bvh`, the reordered primitive
array is a permutation of the input records; the root's subtree range
covers every primitive; an internal node's two children are the contiguous
node indices `start` and `start + 1`, both allocated after it, and their
subtree ranges partition the parent's contiguously; a leaf's range is its
stored span; and every node's bounding box contains the bounding box of
every primitive in its subtree's index range (hence the union of them, and
the root's box contains every primitive's box). -/
theorem C5_bvh_containment (recs : List Rec) :
    subRange (build_bvh recs).1 0 = (0, recs.length) ∧
    List.Perm (build_bvh recs).2 recs ∧
    (∀ nid, nid < (build_bvh recs).1.length →
      (nodeAt (build_bvh recs).1 nid).internal = true →
        nid < (nodeAt (build_bvh recs).1 nid).start ∧
        (nodeAt (build_bvh recs).1 nid).start + 1 < (build_bvh recs).1.length ∧
        (subRange (build_bvh recs).1 ((nodeAt (build_bvh recs).1 nid).start)).1 =
          (subRange (build_bvh recs).1 nid).1 ∧
        (subRange (build_bvh recs).1 ((nodeAt (build_bvh recs).1 nid).start + 1)).1 =
          (subRange (build_bvh recs).1 ((nodeAt (build_bvh recs).1 nid).start)).2 ∧
        (subRange (build_bvh recs).1 ((nodeAt (build_bvh recs).1 nid).start + 1)).2 =
          (subRange (build_bvh recs).1 nid).2) ∧
    (∀ nid, nid < (build_bvh recs).1.length →
      (nodeAt (build_bvh recs).1 nid).internal = false →
        subRange (build_bvh recs).1 nid = ((nodeAt (build_bvh recs).1 nid).start,
          (nodeAt (build_bvh recs).1 nid).start + (nodeAt (build_bvh recs).1 nid).num)) ∧
    (∀ nid, nid < (build_bvh recs).1.length → ∀ i,
      (subRange (build_bvh recs).1 nid).1 ≤ i →
      i < (subRange (build_bvh recs).1 nid).2 →
        i < (build_bvh recs).2.length ∧
        boxContains (nodeAt (build_bvh recs).1 nid).bbox
          (recAt (build_bvh recs).2 i).bbox) := by
  obtain ⟨R, hR0, hlen1, hperm, hdone⟩ := build_bvh_spec recs
  have hsub : ∀ id, id < (build_bvh recs).1.length →
      subRange (build_bvh recs).1 id = R id := fun id hid =>
    subRange_eq_of_done _ _ R hdone (build_bvh recs).1.length id (by omega) hid
  have houtlen : (build_bvh recs).2.length = recs.length := hperm.length_eq
  refine ⟨?_, hperm, ?_, ?_, ?_⟩
  · rw [hsub 0 (by omega), hR0]
  · intro nid hnid hint
    obtain ⟨e1, e2, e3, e4, e5, e6, e7⟩ := (hdone nid hnid).2.2.1 hint
    refine ⟨e1, e2, ?_, ?_, ?_⟩
    · rw [hsub _ (by omega), hsub _ hnid, e3]
    · rw [hsub _ (by omega), hsub _ (by omega), e4]
    · rw [hsub _ (by omega), hsub _ hnid, e5]
  · intro nid hnid hleaf
    obtain ⟨f1, f2⟩ := (hdone nid hnid).2.2.2.1 hleaf
    have hle := (hdone nid hnid).1
    rw [hsub _ hnid, f1, f2]
    rw [show (R nid).1 + ((R nid).2 - (R nid).1) = (R nid).2 from by omega]
  · intro nid hnid i hi1 hi2
    rw [hsub _ hnid] at hi1 hi2
    have hD := hdone nid hnid
    exact ⟨by have := hD.2.1; omega, hD.2.2.2.2 i hi1 hi2⟩

-- ---------------------------------------------------------------------------
-- BVH traversal versus exhaustive intersection (yocto_raytrace.cpp 389-471)
-- ---------------------------------------------------------------------------

/-- Modelled from the spec: a shape primitive as the traversal sees it —
its bounding box (point/line/triangle bounds with radius inflation are
computed by external helpers) and the geometric ray intersection routine
(`intersect_point` / `intersect_line` / `intersect_triangle`), abstracted
as the parametric hit `(uv, t)` of the ray `(o, d)` with the primitive,
independent of the ray's valid range. -/
structure PrimT where
  bbox : Box
  hit0 : V3 → V3 → Option (V2 × ℚ)

def primDefault : PrimT := ⟨invalidb3f, fun _ _ => none⟩

/-- Vector indexing on the primitive array. -/
def primAt (prims : List PrimT) (i : ℕ) : PrimT := prims.getD i primDefault

/-- Modelled from the spec: the primitive-specific intersection routines
report a hit exactly when the geometric hit parameter lies in the ray's
current valid range `[tmin, tmax]`. -/
def isectPrim (p : PrimT) (o d : V3) (tmin tmax : ℚ) : Option (V2 × ℚ) :=
  match p.hit0 o d with
  | none => none
  | some (uv, t) => if tmin ≤ t ∧ t ≤ tmax then some (uv, t) else none

/-- `ray_dinv = {1/d.x, 1/d.y, 1/d.z}` of `intersect_shape_bvh`. -/
def inv3 (v : V3) : V3 := ⟨v.x⁻¹, v.y⁻¹, v.z⁻¹⟩

/-- Modelled from the spec: the ray/box slab test used by the traversal
(`intersect_bbox(ray, ray_dinv, bbox)` of the external geometry header),
in exact arithmetic: per-axis entry/exit parameters from the reciprocal
direction, intersected with the ray's `[tmin, tmax]` range.  (The
floating-point version widens the exit parameter by one ulp to absorb
rounding; over ℚ no widening is needed.) -/
def intersect_bbox (o dinv : V3) (tmin tmax : ℚ) (b : Box) : Bool :=
  let it_min := mul3 (b.lo - o) dinv
  let it_max := mul3 (b.hi - o) dinv
  let lo := min3 it_min it_max
  let hi := max3 it_min it_max
  let t0 := max (max (max lo.x lo.y) lo.z) tmin
  let t1 := min (min (min hi.x hi.y) hi.z) tmax
  decide (t0 ≤ t1)

theorem slab_axis (bmin bmax o d t : ℚ) (hd : d ≠ 0)
    (h1 : bmin ≤ o + t * d) (h2 : o + t * d ≤ bmax) :
    min ((bmin - o) * d⁻¹) ((bmax - o) * d⁻¹) ≤ t ∧
    t ≤ max ((bmin - o) * d⁻¹) ((bmax - o) * d⁻¹) := by
  have hdi : d⁻¹ * d = 1 := inv_mul_cancel₀ hd
  have key1 : (bmin - o) * d⁻¹ - t = d⁻¹ * (bmin - o - t * d) := by
    linear_combination t * hdi
  have key2 : (bmax - o) * d⁻¹ - t = d⁻¹ * (bmax - o - t * d) := by
    linear_combination t * hdi
  rcases lt_or_gt_of_ne hd with hneg | hpos
  · have hri : d⁻¹ < 0 := inv_lt_zero.mpr hneg
    constructor
    · refine le_trans (min_le_right _ _) ?_
      have hprod : 0 ≤ (-d⁻¹) * (bmax - o - t * d) :=
        mul_nonneg (by linarith) (by linarith)
      nlinarith [key2, hprod]
    · refine le_trans ?_ (le_max_left _ _)
      have hprod : 0 ≤ (-d⁻¹) * (-(bmin - o - t * d)) :=
        mul_nonneg (by linarith) (by linarith)
      nlinarith [key1, hprod]
  · have hri : 0 < d⁻¹ := inv_pos.mpr hpos
    constructor
    · refine le_trans (min_le_left _ _) ?_
      have hprod : 0 ≤ d⁻¹ * (-(bmin - o - t * d)) :=
        mul_nonneg hri.le (by linarith)
      nlinarith [key1, hprod]
    · refine le_trans ?_ (le_max_right _ _)
      have hprod : 0 ≤ d⁻¹ * (bmax - o - t * d) :=
        mul_nonneg hri.le (by linarith)
      nlinarith [key2, hprod]

/-- Completeness of the slab test: a box containing a ray point whose
parameter lies in the valid range always passes. -/
theorem intersect_bbox_complete {o d : V3} {tmin tmax t : ℚ} {b : Box}
    (hdx : d.x ≠ 0) (hdy : d.y ≠ 0) (hdz : d.z ≠ 0)
    (hm : memB (o + smul3 t d) b) (h1 : tmin ≤ t) (h2 : t ≤ tmax) :
    intersect_bbox o (inv3 d) tmin tmax b = true := by
  simp only [memB, le3, V3_add_def, smul3] at hm
  obtain ⟨⟨hlx, hly, hlz⟩, hhx, hhy, hhz⟩ := hm
  have Hx := slab_axis b.lo.x b.hi.x o.x d.x t hdx (by linarith) (by linarith)
  have Hy := slab_axis b.lo.y b.hi.y o.y d.y t hdy (by linarith) (by linarith)
  have Hz := slab_axis b.lo.z b.hi.z o.z d.z t hdz (by linarith) (by linarith)
  simp only [intersect_bbox, inv3, mul3, min3, max3, V3_sub_def,
    decide_eq_true_eq, max_le_iff, le_min_iff]
  repeat' apply And.intro
  all_goals linarith [Hx.1, Hx.2, Hy.1, Hy.2, Hz.1, Hz.2]

/-- The primitive-record construction loop of `init_bvh` (yocto_raytrace.cpp
lines 305-332): one record per primitive, holding its bounding box, the
box's center and the original index. -/
def recsOf (prims : List PrimT) : List Rec :=
  (List.range prims.length).map fun i =>
    ⟨(primAt prims i).bbox, centerB (primAt prims i).bbox, i⟩

/-- `shape->bvh->primitives`: the reordered original indices
(yocto_raytrace.cpp lines 339-344). -/
def primIdsOf (out : List Rec) : List ℕ := out.map fun r => r.primitive

/-- Vector indexing on the id array. -/
def nthNat (l : List ℕ) (i : ℕ) : ℕ := l.getD i 0

/-- One primitive test of the traversal's leaf loop and of the brute-force
sweep: on an accepted hit, record `(element, uv, distance)` and shrink the
ray's `tmax` (`hit = true; element = ...; ray.tmax = distance`). -/
def hitStep (prims : List PrimT) (o d : V3) (tmin : ℚ)
    (st : Option (ℕ × V2 × ℚ) × ℚ) (pid : ℕ) : Option (ℕ × V2 × ℚ) × ℚ :=
  match isectPrim (primAt prims pid) o d tmin st.2 with
  | none => st
  | some (uv, t) => (some (pid, uv, t), t)

/-- The primitive ids visited by a leaf spanning `[start, start+num)`. -/
def leafPids (primIds : List ℕ) (start num : ℕ) : List ℕ :=
  (List.range num).map fun k => nthNat primIds (start + k)

theorem pow3_two_lt {a b c : ℕ} (hab : a ≤ b) (hbc : b < c) :
    3 ^ a + 3 ^ b < 3 ^ c := by
  have h1 : (3:ℕ) ^ a ≤ 3 ^ b := Nat.pow_le_pow_right (by norm_num) hab
  have h2 : (3:ℕ) ^ b * 3 ≤ 3 ^ c := by
    calc (3:ℕ) ^ b * 3 = 3 ^ (b + 1) := (pow_succ 3 b).symm
      _ ≤ 3 ^ c := Nat.pow_le_pow_right (by norm_num) (by omega)
  have h3 : 0 < (3:ℕ) ^ b := pow_pos (by norm_num) _
  omega

/-- Embedding of the walking-stack loop of `intersect_shape_bvh`
(yocto_raytrace.cpp lines 414-466): pop a node id, reject it on the bbox
test, push the two children ordered by the ray direction's sign on the
split axis for an internal node, run the primitive loop for a leaf, and in
any-hit mode return as soon as a hit is recorded.  The structural guard on
internal nodes (children allocated after the parent and inside the array)
is the invariant `build_bvh` establishes (`buildLoop_spec`); it bounds the
recursion. -/
def travLoop (nodes : List Node) (prims : List PrimT) (primIds : List ℕ)
    (o d dinv : V3) (tmin : ℚ) (find_any : Bool) (stack : List ℕ)
    (st : Option (ℕ × V2 × ℚ) × ℚ) : Option (ℕ × V2 × ℚ) × ℚ :=
  match stack with
  | [] => st
  | nid :: stack =>
    if intersect_bbox o dinv tmin st.2 (nodeAt nodes nid).bbox then
      if hgd : (nodeAt nodes nid).internal = true ∧ nid < (nodeAt nodes nid).start ∧
          (nodeAt nodes nid).start + 1 < nodes.length then
        let stk1 := if getAxis dinv (nodeAt nodes nid).axis < 0 then
            ((nodeAt nodes nid).start + 1) :: (nodeAt nodes nid).start :: stack
          else (nodeAt nodes nid).start :: ((nodeAt nodes nid).start + 1) :: stack
        if find_any = true ∧ st.1.isSome = true then st
        else travLoop nodes prims primIds o d dinv tmin find_any stk1 st
      else
        let st1 := (leafPids primIds (nodeAt nodes nid).start
          (nodeAt nodes nid).num).foldl (hitStep prims o d tmin) st
        if find_any = true ∧ st1.1.isSome = true then st1
        else travLoop nodes prims primIds o d dinv tmin find_any stack st1
    else travLoop nodes prims primIds o d dinv tmin find_any stack st
termination_by (stack.map fun nid => 3 ^ (nodes.length - nid)).sum
decreasing_by
  · obtain ⟨h1, h2, h3⟩ := hgd
    have hp := pow3_two_lt (a := nodes.length - ((nodeAt nodes nid).start + 1))
      (b := nodes.length - (nodeAt nodes nid).start)
      (c := nodes.length - nid) (by omega) (by omega)
    simp only [List.map_cons, List.sum_cons]
    split <;> simp only [List.map_cons, List.sum_cons] <;> omega
  · simp only [List.map_cons, List.sum_cons]
    have h3 : 0 < (3:ℕ) ^ (nodes.length - nid) := pow_pos (by norm_num) _
    omega
  · simp only [List.map_cons, List.sum_cons]
    have h3 : 0 < (3:ℕ) ^ (nodes.length - nid) := pow_pos (by norm_num) _
    omega

/-- Embedding of `intersect_shape_bvh` (yocto_raytrace.cpp lines 389-471)
composed with the shape's tree construction (`init_bvh`): build the tree
over the shape's primitive records, then walk it from the root with the
reciprocal direction precomputed.  Returns `some (element, uv, distance)`
on a hit, `none` otherwise. -/
def intersect_shape_bvh (prims : List PrimT) (ray : RayQ) (find_any : Bool) :
    Option (ℕ × V2 × ℚ) :=
  let bvh := build_bvh (recsOf prims)
  if bvh.1.isEmpty then none
  else (travLoop bvh.1 prims (primIdsOf bvh.2) ray.o ray.d (inv3 ray.d)
    ray.tmin find_any [0] (none, ray.tmax)).1

/-- Modelled from the spec: the exhaustive brute-force reference — test the
ray against every primitive in index order, keeping the accepted hits and
shrinking the valid range exactly as the leaf loop does. -/
def brute_force_intersect (prims : List PrimT) (ray : RayQ) :
    Option (ℕ × V2 × ℚ) :=
  ((List.range prims.length).foldl (hitStep prims ray.o ray.d ray.tmin)
    (none, ray.tmax)).1

/-- The running-state invariant shared by the brute-force sweep and the
traversal.  `S` lists the primitive ids already tested: the recorded hit
(if any) is a genuine accepted hit attaining the minimum over the eligible
hits of `S`, and `tmax` shrinks to the recorded distance. -/
def StOK (prims : List PrimT) (o d : V3) (tmin tmax0 : ℚ) (S : List ℕ)
    (st : Option (ℕ × V2 × ℚ) × ℚ) : Prop :=
  st.2 ≤ tmax0 ∧
  (st.1 = none → st.2 = tmax0) ∧
  (∀ e uv t, st.1 = some (e, uv, t) → st.2 = t ∧ e ∈ S ∧
    (primAt prims e).hit0 o d = some (uv, t) ∧ tmin ≤ t ∧ t ≤ tmax0) ∧
  (∀ pid ∈ S, ∀ uv t, (primAt prims pid).hit0 o d = some (uv, t) →
    tmin ≤ t → t ≤ tmax0 → st.2 ≤ t ∧ st.1 ≠ none)

theorem StOK_hitStep {prims : List PrimT} {o d : V3} {tmin tmax0 : ℚ}
    {S : List ℕ} {st : Option (ℕ × V2 × ℚ) × ℚ}
    (h : StOK prims o d tmin tmax0 S st) (pid : ℕ) :
    StOK prims o d tmin tmax0 (S ++ [pid]) (hitStep prims o d tmin st pid) := by
  obtain ⟨m1, m2, m3, m4⟩ := h
  unfold hitStep isectPrim
  cases hh : (primAt prims pid).hit0 o d with
  | none =>
    dsimp only
    refine ⟨m1, m2, ?_, ?_⟩
    · intro e uv t he
      obtain ⟨g1, g2, g3, g4, g5⟩ := m3 e uv t he
      exact ⟨g1, List.mem_append_left _ g2, g3, g4, g5⟩
    · intro q hq uv t hq0 ht1 ht2
      rcases List.mem_append.mp hq with hq | hq
      · exact m4 q hq uv t hq0 ht1 ht2
      · rw [List.mem_singleton.mp hq] at hq0
        rw [hh] at hq0
        cases hq0
  | some p =>
    obtain ⟨uv0, t0⟩ := p
    dsimp only
    by_cases hacc : tmin ≤ t0 ∧ t0 ≤ st.2
    · rw [if_pos hacc]
      dsimp only
      refine ⟨le_trans hacc.2 m1, ?_, ?_, ?_⟩
      · intro habs
        cases habs
      · intro e uv t he
        rw [Option.some.injEq, Prod.mk.injEq, Prod.mk.injEq] at he
        obtain ⟨he1, he2, he3⟩ := he
        subst he1
        subst he2
        subst he3
        exact ⟨rfl, List.mem_append_right _ (List.mem_singleton_self _), hh,
          hacc.1, le_trans hacc.2 m1⟩
      · intro q hq uv t hq0 ht1 ht2
        rcases List.mem_append.mp hq with hq | hq
        · obtain ⟨g1, _⟩ := m4 q hq uv t hq0 ht1 ht2
          exact ⟨le_trans hacc.2 g1, by simp⟩
        · rw [List.mem_singleton.mp hq] at hq0
          rw [hh, Option.some.injEq, Prod.mk.injEq] at hq0
          rw [← hq0.2]
          exact ⟨le_refl _, by simp⟩
    · rw [if_neg hacc]
      dsimp only
      refine ⟨m1, m2, ?_, ?_⟩
      · intro e uv t he
        obtain ⟨g1, g2, g3, g4, g5⟩ := m3 e uv t he
        exact ⟨g1, List.mem_append_left _ g2, g3, g4, g5⟩
      · intro q hq uv t hq0 ht1 ht2
        rcases List.mem_append.mp hq with hq | hq
        · exact m4 q hq uv t hq0 ht1 ht2
        · rw [List.mem_singleton.mp hq] at hq0
          rw [hh, Option.some.injEq, Prod.mk.injEq] at hq0
          have ht : t = t0 := hq0.2.symm
          subst ht
          have hgt : st.2 < t := by
            rcases not_and_or.mp hacc with hc | hc
            · exact absurd ht1 hc
            · exact lt_of_not_le hc
          refine ⟨le_of_lt hgt, ?_⟩
          intro hnone
          rw [m2 hnone] at hgt
          exact absurd ht2 (not_le_of_lt hgt)

theorem StOK_foldl {prims : List PrimT} {o d : V3} {tmin tmax0 : ℚ} :
    ∀ (L S : List ℕ) (st : Option (ℕ × V2 × ℚ) × ℚ),
    StOK prims o d tmin tmax0 S st →
    StOK prims o d tmin tmax0 (S ++ L) (L.foldl (hitStep prims o d tmin) st) := by
  intro L
  induction L with
  | nil =>
    intro S st h
    simpa using h
  | cons a L ih =>
    intro S st h
    rw [List.foldl_cons]
    have h2 := ih (S ++ [a]) _ (StOK_hitStep h a)
    rw [List.append_assoc] at h2
    simpa using h2

theorem hitStep_tmax_le (prims : List PrimT) (o d : V3) (tmin : ℚ)
    (st : Option (ℕ × V2 × ℚ) × ℚ) (pid : ℕ) :
    (hitStep prims o d tmin st pid).2 ≤ st.2 := by
  unfold hitStep isectPrim
  cases hh : (primAt prims pid).hit0 o d with
  | none => exact le_refl _
  | some p =>
    obtain ⟨uv0, t0⟩ := p
    dsimp only
    by_cases hacc : tmin ≤ t0 ∧ t0 ≤ st.2
    · rw [if_pos hacc]
      exact hacc.2
    · rw [if_neg hacc]

theorem hitStep_none (prims : List PrimT) (o d : V3) (tmin : ℚ)
    (st : Option (ℕ × V2 × ℚ) × ℚ) (pid : ℕ)
    (h : (hitStep prims o d tmin st pid).1 = none) : st.1 = none := by
  unfold hitStep isectPrim at h
  cases hh : (primAt prims pid).hit0 o d with
  | none =>
    rw [hh] at h
    exact h
  | some p =>
    obtain ⟨uv0, t0⟩ := p
    rw [hh] at h
    dsimp only at h
    by_cases hacc : tmin ≤ t0 ∧ t0 ≤ st.2
    · rw [if_pos hacc] at h
      cases h
    · rw [if_neg hacc] at h
      exact h

theorem foldl_hitStep_tmax_le (prims : List PrimT) (o d : V3) (tmin : ℚ) :
    ∀ (L : List ℕ) (st : Option (ℕ × V2 × ℚ) × ℚ),
    (L.foldl (hitStep prims o d tmin) st).2 ≤ st.2 := by
  intro L
  induction L with
  | nil => intro st; exact le_refl _
  | cons a L ih =>
    intro st
    rw [List.foldl_cons]
    exact le_trans (ih _) (hitStep_tmax_le prims o d tmin st a)

theorem foldl_hitStep_none (prims : List PrimT) (o d : V3) (tmin : ℚ) :
    ∀ (L : List ℕ) (st : Option (ℕ × V2 × ℚ) × ℚ),
    (L.foldl (hitStep prims o d tmin) st).1 = none → st.1 = none := by
  intro L
  induction L with
  | nil => intro st h; exact h
  | cons a L ih =>
    intro st h
    rw [List.foldl_cons] at h
    exact hitStep_none prims o d tmin st a (ih _ h)

theorem recsOf_length (prims : List PrimT) : (recsOf prims).length = prims.length := by
  simp [recsOf]

theorem mem_recsOf {prims : List PrimT} {r : Rec} (h : r ∈ recsOf prims) :
    r.primitive < prims.length ∧ r.bbox = (primAt prims r.primitive).bbox := by
  simp only [recsOf, List.mem_map, List.mem_range] at h
  obtain ⟨i, hi, rfl⟩ := h
  exact ⟨hi, rfl⟩

theorem recAt_mem {out : List Rec} {i : ℕ} (h : i < out.length) :
    recAt out i ∈ out := by
  unfold recAt
  rw [List.getD_eq_getElem?_getD, List.getElem?_eq_getElem h]
  simp only [Option.getD_some]
  exact List.getElem_mem h

theorem nthNat_primIdsOf {out : List Rec} {i : ℕ} (h : i < out.length) :
    nthNat (primIdsOf out) i = (recAt out i).primitive := by
  unfold nthNat primIdsOf recAt
  rw [List.getD_eq_getElem?_getD, List.getD_eq_getElem?_getD, List.getElem?_map,
    List.getElem?_eq_getElem h]
  rfl

theorem primIdsOf_perm_range {prims : List PrimT} {out : List Rec}
    (h : out.Perm (recsOf prims)) :
    (primIdsOf out).Perm (List.range prims.length) := by
  have h2 := h.map fun r => r.primitive
  have h3 : (recsOf prims).map (fun r => r.primitive) = List.range prims.length := by
    unfold recsOf
    rw [List.map_map]
    have hc : ((fun r : Rec => r.primitive) ∘ fun i =>
        (⟨(primAt prims i).bbox, centerB (primAt prims i).bbox, i⟩ : Rec)) = id := by
      funext i
      rfl
    rw [hc, List.map_id]
  rw [h3] at h2
  exact h2

/-- `res` accounts for primitive `pid`: any eligible hit of `pid` is no
closer than the recorded result, and forces a recorded hit. -/
def Accnt (prims : List PrimT) (o d : V3) (tmin tmax0 : ℚ)
    (res : Option (ℕ × V2 × ℚ) × ℚ) (pid : ℕ) : Prop :=
  ∀ uv t, (primAt prims pid).hit0 o d = some (uv, t) → tmin ≤ t → t ≤ tmax0 →
    res.2 ≤ t ∧ res.1 ≠ none

/-- Postcondition of the traversal loop relative to the build's ghost
range map `R`: the result is a sound running state over some tested set,
it only shrinks the range and never forgets a hit, and it accounts for
everything already tested (`S`) and for the whole subtree of every pending
stack entry. -/
def TravPost (nodes : List Node) (out : List Rec) (R : ℕ → ℕ × ℕ)
    (prims : List PrimT) (o d : V3) (tmin tmax0 : ℚ) (stack S : List ℕ)
    (st res : Option (ℕ × V2 × ℚ) × ℚ) : Prop :=
  (∃ S2, (∀ pid ∈ S2, pid < prims.length) ∧ StOK prims o d tmin tmax0 S2 res) ∧
  res.2 ≤ st.2 ∧
  (st.1 ≠ none → res.1 ≠ none) ∧
  (∀ pid ∈ S, Accnt prims o d tmin tmax0 res pid) ∧
  (∀ nid ∈ stack, ∀ i, (R nid).1 ≤ i → i < (R nid).2 →
    Accnt prims o d tmin tmax0 res (nthNat (primIdsOf out) i))

theorem travLoop_spec (nodes : List Node) (out : List Rec) (R : ℕ → ℕ × ℕ)
    (prims : List PrimT) (o d : V3) (tmin tmax0 : ℚ)
    (hdone : ∀ id, id < nodes.length → DoneNode nodes out R id)
    (hperm : out.Perm (recsOf prims))
    (hdx : d.x ≠ 0) (hdy : d.y ≠ 0) (hdz : d.z ≠ 0)
    (hhit : ∀ pid, pid < prims.length → ∀ uv t,
      (primAt prims pid).hit0 o d = some (uv, t) →
      memB (o + smul3 t d) (primAt prims pid).bbox) :
    ∀ (fuel : ℕ) (stack : List ℕ) (st : Option (ℕ × V2 × ℚ) × ℚ) (S : List ℕ),
    (stack.map fun nid => 3 ^ (nodes.length - nid)).sum ≤ fuel →
    (∀ nid ∈ stack, nid < nodes.length) →
    StOK prims o d tmin tmax0 S st →
    (∀ pid ∈ S, pid < prims.length) →
    TravPost nodes out R prims o d tmin tmax0 stack S st
      (travLoop nodes prims (primIdsOf out) o d (inv3 d) tmin false stack st) := by
  intro fuel
  induction fuel with
  | zero =>
    intro stack st S hm hv hok hb
    cases stack with
    | nil =>
      rw [travLoop]
      exact ⟨⟨S, hb, hok⟩, le_refl _, fun h => h,
        fun pid hpid uv t h1 h2 h3 => hok.2.2.2 pid hpid uv t h1 h2 h3,
        fun nid hnid => absurd hnid (List.not_mem_nil _)⟩
    | cons nid stack =>
      exfalso
      simp only [List.map_cons, List.sum_cons] at hm
      have hpow : 0 < 3 ^ (nodes.length - nid) := pow_pos (by norm_num) _
      omega
  | succ fuel ih =>
    intro stack st S hm hv hok hb
    cases stack with
    | nil =>
      rw [travLoop]
      exact ⟨⟨S, hb, hok⟩, le_refl _, fun h => h,
        fun pid hpid uv t h1 h2 h3 => hok.2.2.2 pid hpid uv t h1 h2 h3,
        fun nid hnid => absurd hnid (List.not_mem_nil _)⟩
    | cons nid stack =>
      simp only [List.map_cons, List.sum_cons] at hm
      have hpow : 0 < 3 ^ (nodes.length - nid) := pow_pos (by norm_num) _
      have hnidlt : nid < nodes.length := hv nid (List.mem_cons_self _ _)
      have hD := hdone nid hnidlt
      rw [travLoop]
      by_cases hbb : intersect_bbox o (inv3 d) tmin st.2 (nodeAt nodes nid).bbox = true
      · rw [if_pos hbb]
        by_cases hgd : (nodeAt nodes nid).internal = true ∧
            nid < (nodeAt nodes nid).start ∧
            (nodeAt nodes nid).start + 1 < nodes.length
        · rw [dif_pos hgd]
          obtain ⟨hgi, hgs, hgl⟩ := hgd
          obtain ⟨e1, e2, e3, e4, e5, e6, e7⟩ := hD.2.2.1 hgi
          simp only []
          rw [if_neg (by simp)]
          have hmain : ∀ stk1 : List ℕ,
              stk1 = ((nodeAt nodes nid).start + 1) :: (nodeAt nodes nid).start :: stack ∨
              stk1 = (nodeAt nodes nid).start :: ((nodeAt nodes nid).start + 1) :: stack →
              TravPost nodes out R prims o d tmin tmax0 (nid :: stack) S st
                (travLoop nodes prims (primIdsOf out) o d (inv3 d) tmin false stk1 st) := by
            intro stk1 hstk
            have hmem : ∀ x, x ∈ stk1 ↔ x = (nodeAt nodes nid).start ∨
                x = (nodeAt nodes nid).start + 1 ∨ x ∈ stack := by
              rcases hstk with h | h <;> subst h <;> intro x <;>
                simp only [List.mem_cons] <;> tauto
            have hp := pow3_two_lt (a := nodes.length - ((nodeAt nodes nid).start + 1))
              (b := nodes.length - (nodeAt nodes nid).start)
              (c := nodes.length - nid) (by omega) (by omega)
            have hsum : (stk1.map fun nid => 3 ^ (nodes.length - nid)).sum ≤ fuel := by
              rcases hstk with h | h <;> subst h <;>
                simp only [List.map_cons, List.sum_cons] <;> omega
            have hvalid : ∀ x ∈ stk1, x < nodes.length := by
              intro x hx
              rcases (hmem x).mp hx with h | h | h
              · omega
              · omega
              · exact hv x (List.mem_cons_of_mem _ h)
            obtain ⟨p1, p2, p3, p4, p5⟩ := ih stk1 st S hsum hvalid hok hb
            refine ⟨p1, p2, p3, p4, ?_⟩
            intro nid2 hnid2 i hia hib
            rcases List.mem_cons.mp hnid2 with h | h
            · subst h
              by_cases hc : i < (R ((nodeAt nodes nid2).start)).2
              · exact p5 ((nodeAt nodes nid2).start)
                  ((hmem _).mpr (Or.inl rfl)) i (by omega) hc
              · exact p5 ((nodeAt nodes nid2).start + 1)
                  ((hmem _).mpr (Or.inr (Or.inl rfl))) i (by omega) (by omega)
            · exact p5 nid2 ((hmem nid2).mpr (Or.inr (Or.inr h))) i hia hib
          by_cases hsgn : getAxis (inv3 d) (nodeAt nodes nid).axis < 0
          · rw [if_pos hsgn]
            exact hmain _ (Or.inl rfl)
          · rw [if_neg hsgn]
            exact hmain _ (Or.inr rfl)
        · rw [dif_neg hgd]
          have hIF : (nodeAt nodes nid).internal = false := by
            rcases Bool.eq_false_or_eq_true (nodeAt nodes nid).internal with h | h
            · obtain ⟨e1, e2, _⟩ := hD.2.2.1 h
              exact absurd ⟨h, e1, e2⟩ hgd
            · exact h
          obtain ⟨f1, f2⟩ := hD.2.2.2.1 hIF
          simp only []
          rw [if_neg (by simp)]
          have hLmem : ∀ x ∈ leafPids (primIdsOf out) (nodeAt nodes nid).start
              (nodeAt nodes nid).num,
              ∃ i, (R nid).1 ≤ i ∧ i < (R nid).2 ∧ nthNat (primIdsOf out) i = x := by
            intro x hx
            simp only [leafPids, List.mem_map, List.mem_range] at hx
            obtain ⟨k, hk, rfl⟩ := hx
            exact ⟨(nodeAt nodes nid).start + k, by omega, by omega, rfl⟩
          have hLlt : ∀ x ∈ leafPids (primIdsOf out) (nodeAt nodes nid).start
              (nodeAt nodes nid).num, x < prims.length := by
            intro x hx
            obtain ⟨i, hia, hib, rfl⟩ := hLmem x hx
            have hio : i < out.length := lt_of_lt_of_le hib hD.2.1
            rw [nthNat_primIdsOf hio]
            exact (mem_recsOf (hperm.subset (recAt_mem hio))).1
          have hok1 := StOK_foldl (leafPids (primIdsOf out) (nodeAt nodes nid).start
            (nodeAt nodes nid).num) S st hok
          have hb1 : ∀ pid ∈ S ++ leafPids (primIdsOf out) (nodeAt nodes nid).start
              (nodeAt nodes nid).num, pid < prims.length := by
            intro pid hpid
            rcases List.mem_append.mp hpid with h | h
            · exact hb pid h
            · exact hLlt pid h
          have hsum : (stack.map fun nid => 3 ^ (nodes.length - nid)).sum ≤ fuel := by
            omega
          have hvalid : ∀ x ∈ stack, x < nodes.length :=
            fun x hx => hv x (List.mem_cons_of_mem _ hx)
          obtain ⟨p1, p2, p3, p4, p5⟩ := ih stack _ _ hsum hvalid hok1 hb1
          refine ⟨p1, ?_, ?_, ?_, ?_⟩
          · exact le_trans p2 (foldl_hitStep_tmax_le prims o d tmin _ st)
          · intro hne
            apply p3
            intro h1
            exact hne (foldl_hitStep_none prims o d tmin _ st h1)
          · intro pid hpid
            exact p4 pid (List.mem_append_left _ hpid)
          · intro nid2 hnid2 i hia hib
            rcases List.mem_cons.mp hnid2 with h | h
            · subst h
              have hx : nthNat (primIdsOf out) i ∈ leafPids (primIdsOf out)
                  (nodeAt nodes nid2).start (nodeAt nodes nid2).num := by
                simp only [leafPids, List.mem_map, List.mem_range]
                refine ⟨i - (nodeAt nodes nid2).start, by omega, ?_⟩
                congr 1
                omega
              exact p4 _ (List.mem_append_right _ hx)
            · exact p5 nid2 h i hia hib
      · rw [if_neg hbb]
        have hsum : (stack.map fun nid => 3 ^ (nodes.length - nid)).sum ≤ fuel := by
          omega
        have hvalid : ∀ x ∈ stack, x < nodes.length :=
          fun x hx => hv x (List.mem_cons_of_mem _ hx)
        obtain ⟨p1, p2, p3, p4, p5⟩ := ih stack st S hsum hvalid hok hb
        refine ⟨p1, p2, p3, p4, ?_⟩
        intro nid2 hnid2 i hia hib
        rcases List.mem_cons.mp hnid2 with h | h
        · subst h
          intro uv t hh0 ht1 ht2
          have hio : i < out.length := lt_of_lt_of_le hib hD.2.1
          have hpid := nthNat_primIdsOf hio
          have hrec := mem_recsOf (hperm.subset (recAt_mem hio))
          have hplt : nthNat (primIdsOf out) i < prims.length := by
            rw [hpid]
            exact hrec.1
          have hmemb : memB (o + smul3 t d) (recAt out i).bbox := by
            have hh := hhit _ hplt uv t hh0
            rw [hpid] at hh
            rw [hrec.2]
            exact hh
          have hnbb : memB (o + smul3 t d) (nodeAt nodes nid2).bbox :=
            memB_of_boxContains (hD.2.2.2.2 i hia hib) hmemb
          have hgt : st.2 < t := by
            by_contra hle
            push_neg at hle
            exact hbb (intersect_bbox_complete hdx hdy hdz hnbb ht1 hle)
          refine ⟨le_trans p2 (le_of_lt hgt), ?_⟩
          apply p3
          intro hnone
          rw [hok.2.1 hnone] at hgt
          exact absurd ht2 (not_le_of_lt hgt)
        · exact p5 nid2 h i hia hib

/-- C1 (amended): for a ray whose direction has no zero component and
primitives whose geometric hits lie inside their own bounding boxes,
nearest-hit BVH traversal (`intersect_shape_bvh` with `find_any = false`
over the tree `build_bvh` constructs) hits exactly when the exhaustive
brute-force sweep does; its reported hit is a genuine accepted hit whose
distance attains the minimum over all eligible primitives (so both report
the same distance, and the brute-force hit is likewise genuine); and when
that minimum distance is attained by a unique primitive — any two eligible
hits at the reported distance `t` are the same primitive, ties at farther
distances being irrelevant — the reported element and parametric
coordinate also coincide with the brute-force ones.  (Equal-distance ties
at the minimum are broken by visit order, which the two procedures need
not share — see the counterexample.) -/
theorem C1_bvh_refines_brute_force (prims : List PrimT) (ray : RayQ)
    (hdx : ray.d.x ≠ 0) (hdy : ray.d.y ≠ 0) (hdz : ray.d.z ≠ 0)
    (hhit : ∀ pid, pid < prims.length → ∀ uv t,
      (primAt prims pid).hit0 ray.o ray.d = some (uv, t) →
      memB (ray.o + smul3 t ray.d) (primAt prims pid).bbox) :
    (intersect_shape_bvh prims ray false = none ↔
      brute_force_intersect prims ray = none) ∧
    (∀ e uv t, intersect_shape_bvh prims ray false = some (e, uv, t) →
      e < prims.length ∧ (primAt prims e).hit0 ray.o ray.d = some (uv, t) ∧
      ray.tmin ≤ t ∧ t ≤ ray.tmax ∧
      ∀ pid, pid < prims.length → ∀ uv2 t2,
        (primAt prims pid).hit0 ray.o ray.d = some (uv2, t2) →
        ray.tmin ≤ t2 → t2 ≤ ray.tmax → t ≤ t2) ∧
    (∀ e uv t e2 uv2 t2, intersect_shape_bvh prims ray false = some (e, uv, t) →
      brute_force_intersect prims ray = some (e2, uv2, t2) →
      t = t2 ∧ e2 < prims.length ∧
      (primAt prims e2).hit0 ray.o ray.d = some (uv2, t2) ∧
      ray.tmin ≤ t2 ∧ t2 ≤ ray.tmax ∧
      ((∀ p1 p2 uva ta uvb tb, p1 < prims.length → p2 < prims.length →
        (primAt prims p1).hit0 ray.o ray.d = some (uva, ta) →
        (primAt prims p2).hit0 ray.o ray.d = some (uvb, tb) →
        ray.tmin ≤ ta → ta ≤ ray.tmax → ray.tmin ≤ tb → tb ≤ ray.tmax →
        ta = t → tb = t → p1 = p2) → e = e2 ∧ uv = uv2)) := by
  obtain ⟨R, hR0, hlen1, hperm, hdone⟩ := build_bvh_spec (recsOf prims)
  have houtlen : (build_bvh (recsOf prims)).2.length = prims.length := by
    rw [hperm.length_eq, recsOf_length]
  have hie : (build_bvh (recsOf prims)).1.isEmpty = false := by
    cases h : (build_bvh (recsOf prims)).1 with
    | nil =>
      rw [h] at hlen1
      simp at hlen1
    | cons a l => rfl
  have hT : intersect_shape_bvh prims ray false =
      (travLoop (build_bvh (recsOf prims)).1 prims
        (primIdsOf (build_bvh (recsOf prims)).2) ray.o ray.d (inv3 ray.d)
        ray.tmin false [0] (none, ray.tmax)).1 := by
    unfold intersect_shape_bvh
    simp only []
    rw [if_neg (by simp [hie])]
  have hB : brute_force_intersect prims ray =
      ((List.range prims.length).foldl (hitStep prims ray.o ray.d ray.tmin)
        (none, ray.tmax)).1 := rfl
  have hstok0 : StOK prims ray.o ray.d ray.tmin ray.tmax [] (none, ray.tmax) := by
    refine ⟨le_refl _, fun _ => rfl, ?_, ?_⟩
    · intro e uv t he
      simp at he
    · intro pid hpid
      simp at hpid
  have htrav := travLoop_spec (build_bvh (recsOf prims)).1
    (build_bvh (recsOf prims)).2 R prims ray.o ray.d ray.tmin ray.tmax
    hdone hperm hdx hdy hdz hhit
    (([0].map fun nid => 3 ^ ((build_bvh (recsOf prims)).1.length - nid)).sum)
    [0] (none, ray.tmax) [] (le_refl _)
    (by
      intro nid hnid
      rw [List.mem_singleton] at hnid
      subst hnid
      omega)
    hstok0
    (by
      intro pid hpid
      simp at hpid)
  obtain ⟨⟨S2, hS2b, hS2⟩, _, _, _, hcov⟩ := htrav
  have hbr := StOK_foldl (List.range prims.length) [] (none, ray.tmax) hstok0
  rw [List.nil_append] at hbr
  have hAcc : ∀ pid, pid < prims.length →
      Accnt prims ray.o ray.d ray.tmin ray.tmax
        (travLoop (build_bvh (recsOf prims)).1 prims
          (primIdsOf (build_bvh (recsOf prims)).2) ray.o ray.d (inv3 ray.d)
          ray.tmin false [0] (none, ray.tmax)) pid := by
    intro pid hpid
    have hmemp : pid ∈ primIdsOf (build_bvh (recsOf prims)).2 :=
      (primIdsOf_perm_range hperm).mem_iff.mpr (List.mem_range.mpr hpid)
    obtain ⟨i, hilen, higet⟩ := List.getElem_of_mem hmemp
    have hiout : i < (build_bvh (recsOf prims)).2.length := by
      simpa [primIdsOf] using hilen
    have hnth : nthNat (primIdsOf (build_bvh (recsOf prims)).2) i = pid := by
      unfold nthNat
      rw [List.getD_eq_getElem?_getD, List.getElem?_eq_getElem hilen, higet]
      rfl
    have hib : i < (recsOf prims).length := by
      rw [recsOf_length]
      rw [houtlen] at hiout
      exact hiout
    have hc := hcov 0 (List.mem_singleton_self _) i
      (by rw [hR0]; exact Nat.zero_le i) (by rw [hR0]; exact hib)
    rw [hnth] at hc
    exact hc
  refine ⟨?_, ?_, ?_⟩
  · constructor
    · intro hTn
      cases hBc : brute_force_intersect prims ray with
      | none => rfl
      | some v =>
        exfalso
        obtain ⟨e2, uv2, t2⟩ := v
        rw [hB] at hBc
        obtain ⟨k1, k2, k3, k4, k5⟩ := hbr.2.2.1 e2 uv2 t2 hBc
        have he2 : e2 < prims.length := List.mem_range.mp k2
        have hacc := hAcc e2 he2 uv2 t2 k3 k4 k5
        rw [hT] at hTn
        exact hacc.2 hTn
    · intro hBn
      cases hTc : intersect_shape_bvh prims ray false with
      | none => rfl
      | some v =>
        exfalso
        obtain ⟨e, uv, t⟩ := v
        rw [hT] at hTc
        obtain ⟨g1, g2, g3, g4, g5⟩ := hS2.2.2.1 e uv t hTc
        have he : e < prims.length := hS2b e g2
        rw [hB] at hBn
        have hk := hbr.2.2.2 e (List.mem_range.mpr he) uv t g3 g4 g5
        exact hk.2 hBn
  · intro e uv t hTc
    rw [hT] at hTc
    obtain ⟨g1, g2, g3, g4, g5⟩ := hS2.2.2.1 e uv t hTc
    have he : e < prims.length := hS2b e g2
    refine ⟨he, g3, g4, g5, ?_⟩
    intro pid hpid uv2 t2 hh2 hb1 hb2
    have hacc := (hAcc pid hpid uv2 t2 hh2 hb1 hb2).1
    rw [g1] at hacc
    exact hacc
  · intro e uv t e2 uv2 t2 hTc hBc
    rw [hT] at hTc
    rw [hB] at hBc
    obtain ⟨g1, g2, g3, g4, g5⟩ := hS2.2.2.1 e uv t hTc
    obtain ⟨k1, k2, k3, k4, k5⟩ := hbr.2.2.1 e2 uv2 t2 hBc
    have he : e < prims.length := hS2b e g2
    have he2 : e2 < prims.length := List.mem_range.mp k2
    have h1 := (hAcc e2 he2 uv2 t2 k3 k4 k5).1
    rw [g1] at h1
    have h2 := (hbr.2.2.2 e (List.mem_range.mpr he) uv t g3 g4 g5).1
    rw [k1] at h2
    have htt : t = t2 := le_antisymm h1 h2
    refine ⟨htt, he2, k3, k4, k5, ?_⟩
    intro huniq
    have hee : e = e2 := huniq e e2 uv t uv2 t2 he he2 g3 k3 g4 g5 k4 k5 rfl htt.symm
    refine ⟨hee, ?_⟩
    rw [hee] at g3
    rw [g3] at k3
    rw [Option.some.injEq, Prod.mk.injEq] at k3
    exact k3.1

/-- C1 witness ray: direction `(1,1,1)` with no zero component. -/
def ray1w : RayQ := ⟨⟨0, 0, 0⟩, ⟨1, 1, 1⟩, 0, 1⟩

/-- C1 witness: the amended equivalence applied to the empty shape — both
queries report no hit. -/
theorem C1_bvh_refines_brute_force_witness :
    (ray1w.d.x ≠ 0 ∧ ray1w.d.y ≠ 0 ∧ ray1w.d.z ≠ 0) ∧
    (intersect_shape_bvh [] ray1w false = none ↔
      brute_force_intersect [] ray1w = none) :=
  ⟨⟨by norm_num [ray1w], by norm_num [ray1w], by norm_num [ray1w]⟩,
    (C1_bvh_refines_brute_force [] ray1w (by norm_num [ray1w])
      (by norm_num [ray1w]) (by norm_num [ray1w])
      (by
        intro pid hpid
        simp at hpid)).1⟩

-- Concrete instance for the C1 counterexample: five identical primitives.

/-- Point bounding box at `(1,1,1)`. -/
def bb5 : Box := ⟨⟨1, 1, 1⟩, ⟨1, 1, 1⟩⟩

/-- A primitive whose intersection routine always reports the geometric
hit `(uv = (0,0), t = 1)` — e.g. a point primitive the ray pierces at
parameter 1. -/
def prim5 : PrimT := ⟨bb5, fun _ _ => some (zero2, 1)⟩

def prims5 : List PrimT := [prim5, prim5, prim5, prim5, prim5]

def ray5 : RayQ := ⟨⟨2, 2, 2⟩, ⟨-1, -1, -1⟩, 0, 100⟩

/-- The primitive record `recsOf` builds for each of the five. -/
def rec5 (i : ℕ) : Rec := ⟨bb5, centerB bb5, i⟩

/-- Root (internal, children 1 and 2, split axis 0). -/
def nd1 : Node := ⟨bb5, 1, 2, 0, true⟩

/-- Left leaf `[0, 2)`. -/
def nd2 : Node := ⟨bb5, 0, 2, 0, false⟩

/-- Right leaf `[2, 5)`. -/
def nd3 : Node := ⟨bb5, 2, 3, 0, false⟩

theorem build5 : build_bvh (recsOf prims5) = ([nd1, nd2, nd3],
    [rec5 0, rec5 1, rec5 2, rec5 3, rec5 4]) := by
  have hrecs : recsOf prims5 = [rec5 0, rec5 1, rec5 2, rec5 3, rec5 4] := rfl
  have hseg05 : segBox [rec5 0, rec5 1, rec5 2, rec5 3, rec5 4] 0 5 = bb5 := by
    unfold segBox
    rw [show segOf [rec5 0, rec5 1, rec5 2, rec5 3, rec5 4] 0 5 =
      [rec5 0, rec5 1, rec5 2, rec5 3, rec5 4] from rfl]
    norm_num [rec5, bb5, mergeB, invalidb3f, min3, max3, fltMaxQ, min_def, max_def]
  have hseg02 : segBox [rec5 0, rec5 1, rec5 2, rec5 3, rec5 4] 0 2 = bb5 := by
    unfold segBox
    rw [show segOf [rec5 0, rec5 1, rec5 2, rec5 3, rec5 4] 0 2 =
      [rec5 0, rec5 1] from rfl]
    norm_num [rec5, bb5, mergeB, invalidb3f, min3, max3, fltMaxQ, min_def, max_def]
  have hseg25 : segBox [rec5 0, rec5 1, rec5 2, rec5 3, rec5 4] 2 5 = bb5 := by
    unfold segBox
    rw [show segOf [rec5 0, rec5 1, rec5 2, rec5 3, rec5 4] 2 5 =
      [rec5 2, rec5 3, rec5 4] from rfl]
    norm_num [rec5, bb5, mergeB, invalidb3f, min3, max3, fltMaxQ, min_def, max_def]
  have hcb : centerBox [rec5 0, rec5 1, rec5 2, rec5 3, rec5 4] 0 5 = bb5 := by
    unfold centerBox
    rw [show segOf [rec5 0, rec5 1, rec5 2, rec5 3, rec5 4] 0 5 =
      [rec5 0, rec5 1, rec5 2, rec5 3, rec5 4] from rfl]
    norm_num [rec5, bb5, centerB, smul3, mergeP, invalidb3f, min3, max3,
      fltMaxQ, min_def, max_def]
  have hsm : split_middle [rec5 0, rec5 1, rec5 2, rec5 3, rec5 4] 0 5 =
      ([rec5 0, rec5 1, rec5 2, rec5 3, rec5 4], 2, 0) := by
    unfold split_middle
    simp only []
    rw [hcb]
    rw [if_pos (show bb5.hi - bb5.lo = zero3 from by norm_num [bb5, zero3])]
  have hb1 : buildLoop [default] [rec5 0, rec5 1, rec5 2, rec5 3, rec5 4]
      [(0, 0, 5)] = buildLoop [nd1, default, default]
      [rec5 0, rec5 1, rec5 2, rec5 3, rec5 4] [(1, 0, 2), (2, 2, 5)] := by
    rw [buildLoop]
    rw [dif_pos (by norm_num [bvh_max_prims])]
    simp only []
    rw [hsm, hseg05]
    rfl
  have hb2 : buildLoop [nd1, default, default]
      [rec5 0, rec5 1, rec5 2, rec5 3, rec5 4] [(1, 0, 2), (2, 2, 5)] =
      buildLoop [nd1, nd2, default]
      [rec5 0, rec5 1, rec5 2, rec5 3, rec5 4] [(2, 2, 5)] := by
    rw [buildLoop]
    rw [dif_neg (by norm_num [bvh_max_prims])]
    rw [hseg02]
    rfl
  have hb3 : buildLoop [nd1, nd2, default]
      [rec5 0, rec5 1, rec5 2, rec5 3, rec5 4] [(2, 2, 5)] =
      ([nd1, nd2, nd3], [rec5 0, rec5 1, rec5 2, rec5 3, rec5 4]) := by
    rw [buildLoop]
    rw [dif_neg (by norm_num [bvh_max_prims])]
    rw [hseg25]
    rw [buildLoop]
    rfl
  rw [hrecs]
  unfold build_bvh
  rw [show ([rec5 0, rec5 1, rec5 2, rec5 3, rec5 4] : List Rec).length = 5 from rfl]
  rw [hb1, hb2, hb3]

theorem trav5 : travLoop [nd1, nd2, nd3] prims5 [0, 1, 2, 3, 4]
    ⟨2, 2, 2⟩ ⟨-1, -1, -1⟩ ⟨-1, -1, -1⟩ 0 false [0] (none, 100) =
    (some (1, zero2, 1), 1) := by
  have hbbA : intersect_bbox ⟨2, 2, 2⟩ ⟨-1, -1, -1⟩ 0 100 nd1.bbox = true := by
    norm_num [intersect_bbox, nd1, bb5, mul3, min3, max3, min_def, max_def]
  have hbbC : intersect_bbox ⟨2, 2, 2⟩ ⟨-1, -1, -1⟩ 0 100 nd3.bbox = true := by
    norm_num [intersect_bbox, nd3, bb5, mul3, min3, max3, min_def, max_def]
  have hbbD : intersect_bbox ⟨2, 2, 2⟩ ⟨-1, -1, -1⟩ 0 1 nd2.bbox = true := by
    norm_num [intersect_bbox, nd2, bb5, mul3, min3, max3, min_def, max_def]
  have hstep1 : travLoop [nd1, nd2, nd3] prims5 [0, 1, 2, 3, 4]
      ⟨2, 2, 2⟩ ⟨-1, -1, -1⟩ ⟨-1, -1, -1⟩ 0 false [0] (none, 100) =
      travLoop [nd1, nd2, nd3] prims5 [0, 1, 2, 3, 4]
      ⟨2, 2, 2⟩ ⟨-1, -1, -1⟩ ⟨-1, -1, -1⟩ 0 false [2, 1] (none, 100) := by
    rw [travLoop]
    rw [show nodeAt [nd1, nd2, nd3] 0 = nd1 from rfl]
    rw [if_pos hbbA]
    rw [dif_pos (show nd1.internal = true ∧ 0 < nd1.start ∧
      nd1.start + 1 < ([nd1, nd2, nd3] : List Node).length from by norm_num [nd1])]
    simp only []
    rw [if_pos (show getAxis ⟨-1, -1, -1⟩ nd1.axis < 0 from by
      norm_num [getAxis, nd1])]
    simp only [Bool.false_eq_true, false_and, if_false]
    norm_num [nd1]
  have hfold1 : [2, 3, 4].foldl (hitStep prims5 ⟨2, 2, 2⟩ ⟨-1, -1, -1⟩ 0)
      ((none : Option (ℕ × V2 × ℚ)), (100 : ℚ)) = (some (4, zero2, 1), 1) := by
    norm_num [hitStep, isectPrim, primAt, prims5, prim5]
  have hstep2 : travLoop [nd1, nd2, nd3] prims5 [0, 1, 2, 3, 4]
      ⟨2, 2, 2⟩ ⟨-1, -1, -1⟩ ⟨-1, -1, -1⟩ 0 false [2, 1] (none, 100) =
      travLoop [nd1, nd2, nd3] prims5 [0, 1, 2, 3, 4]
      ⟨2, 2, 2⟩ ⟨-1, -1, -1⟩ ⟨-1, -1, -1⟩ 0 false [1] (some (4, zero2, 1), 1) := by
    rw [travLoop]
    rw [show nodeAt [nd1, nd2, nd3] 2 = nd3 from rfl]
    rw [if_pos hbbC]
    rw [dif_neg (show ¬(nd3.internal = true ∧ 2 < nd3.start ∧
      nd3.start + 1 < ([nd1, nd2, nd3] : List Node).length) from by norm_num [nd3])]
    simp only []
    rw [show leafPids [0, 1, 2, 3, 4] nd3.start nd3.num = [2, 3, 4] from rfl]
    rw [hfold1]
    simp only [Bool.false_eq_true, false_and, if_false]
  have hfold2 : [0, 1].foldl (hitStep prims5 ⟨2, 2, 2⟩ ⟨-1, -1, -1⟩ 0)
      ((some (4, zero2, 1) : Option (ℕ × V2 × ℚ)), (1 : ℚ)) =
      (some (1, zero2, 1), 1) := by
    norm_num [hitStep, isectPrim, primAt, prims5, prim5]
  have hstep3 : travLoop [nd1, nd2, nd3] prims5 [0, 1, 2, 3, 4]
      ⟨2, 2, 2⟩ ⟨-1, -1, -1⟩ ⟨-1, -1, -1⟩ 0 false [1] (some (4, zero2, 1), 1) =
      (some (1, zero2, 1), 1) := by
    rw [travLoop]
    rw [show nodeAt [nd1, nd2, nd3] 1 = nd2 from rfl]
    rw [if_pos hbbD]
    rw [dif_neg (show ¬(nd2.internal = true ∧ 1 < nd2.start ∧
      nd2.start + 1 < ([nd1, nd2, nd3] : List Node).length) from by norm_num [nd2])]
    simp only []
    rw [show leafPids [0, 1, 2, 3, 4] nd2.start nd2.num = [0, 1] from rfl]
    rw [hfold2]
    simp only [Bool.false_eq_true, false_and, if_false]
    rw [travLoop]
  rw [hstep1, hstep2, hstep3]

/-- C1 (counterexample to the claim as stated): five identical primitives,
all hit by the ray at the same distance 1.  The tree built by `build_bvh`
splits them into leaves `[2,5)` and `[0,2)`; with direction `(-1,-1,-1)`
the traversal visits the second leaf first and, accepting equal-distance
hits like the primitive routines do, ends on element 1, while the
brute-force index-order sweep ends on element 4.  Hit, distance and
parametric coordinate agree, but the reported element differs, refuting
the claim's "same element" for tie distances. -/
theorem C1_claim_counterexample :
    ¬ (intersect_shape_bvh prims5 ray5 false = brute_force_intersect prims5 ray5) := by
  have hB : brute_force_intersect prims5 ray5 = some (4, zero2, 1) := by
    unfold brute_force_intersect
    rw [show List.range prims5.length = [0, 1, 2, 3, 4] from rfl]
    norm_num [hitStep, isectPrim, primAt, prims5, prim5, ray5]
  have hT : intersect_shape_bvh prims5 ray5 false = some (1, zero2, 1) := by
    unfold intersect_shape_bvh
    simp only []
    rw [build5]
    rw [if_neg (by simp : ¬(([nd1, nd2, nd3] : List Node).isEmpty = true))]
    rw [show primIdsOf [rec5 0, rec5 1, rec5 2, rec5 3, rec5 4] =
      [0, 1, 2, 3, 4] from rfl]
    rw [show ray5.o = (⟨2, 2, 2⟩ : V3) from rfl]
    rw [show ray5.d = (⟨-1, -1, -1⟩ : V3) from rfl]
    rw [show inv3 ⟨-1, -1, -1⟩ = (⟨-1, -1, -1⟩ : V3) from by norm_num [inv3]]
    rw [show ray5.tmin = (0 : ℚ) from rfl]
    rw [show ray5.tmax = (100 : ℚ) from rfl]
    rw [trav5]
  rw [hB, hT]
  intro hcontra
  rw [Option.some.injEq, Prod.mk.injEq] at hcontra
  exact absurd hcontra.1 (by norm_num)

end YRT
